import Mathlib

/-!
Verification development for the sass compiler core: a shallow embedding of
the selector resolver (`ghettoResolvedParentInject`, `mergeLits`), the
expression evaluator and code generator (`simplifyExprs`, `calculateExprs`,
`blockIntro`, `blockOutro`, `printRuleSpec`, `Run`), and the lexical scanner
(`Advance`, `Next`, the state machine `Action`/`Math`/`Paren`/`Comment`/
`Directive`/`Var`/`Text`/`File`).

Go strings are modelled as `String` (selector/evaluator layer, where all
data is text) or as `List Nat` of bytes (scanner layer, where UTF-8 byte
structure matters).  Go panics and runtime errors are modelled with
`Except`; machine integers stay in `Nat`/`Int`.
-/

set_option maxRecDepth 10000

/-! ## Go string primitives

Faithful executable models of the Go standard-library string functions the
repository uses, written over `List Char` so that closed instances reduce
by `decide`. -/

/-- Model of Go `strings.Join(a, sep)`: empty list gives `""`, otherwise the
elements interleaved with `sep`. -/
def goJoin (a : List String) (sep : String) : String :=
  match a with
  | [] => ""
  | x :: xs => xs.foldl (fun acc s => acc ++ sep ++ s) x

/-- One step of Go `strings.Split`: take the chunk up to the first
occurrence of `sep`, returning the chunk and the rest (after `sep`).
`n` is structural fuel (the length of `s` suffices). -/
def goSplitChunk : Nat → List Char → List Char → (List Char × Option (List Char))
  | 0, s, _ => (s, none)
  | _ + 1, [], _ => ([], none)
  | n + 1, c :: rest, sep =>
    if sep.isPrefixOf (c :: rest) then
      ([], some ((c :: rest).drop sep.length))
    else
      let (chunk, more) := goSplitChunk n rest sep
      (c :: chunk, more)

/-- Fuelled worker for `goSplit`. -/
def goSplitAux : Nat → List Char → List Char → List (List Char)
  | 0, s, _ => [s]
  | n + 1, s, sep =>
    match goSplitChunk s.length s sep with
    | (chunk, none) => [chunk]
    | (chunk, some rest) => chunk :: goSplitAux n rest sep

/-- Model of Go `strings.Split(s, sep)` for non-empty `sep`: splits around
every non-overlapping, leftmost-first occurrence of `sep`.  Always returns
at least one element. -/
def goSplit (s sep : String) : List String :=
  (goSplitAux (s.data.length + 1) s.data sep.data).map fun l => String.mk l

/-- Worker for `goContains`: does `sub` occur as a contiguous sublist? -/
def goContainsAux : List Char → List Char → Bool
  | [], sub => sub.isEmpty
  | c :: rest, sub => sub.isPrefixOf (c :: rest) || goContainsAux rest sub

/-- Model of Go `strings.Contains(s, substr)`. -/
def goContains (s sub : String) : Bool :=
  goContainsAux s.data sub.data

/-- Fuelled worker for `goReplaceAll`; fuel `s.length` suffices since every
step discards at least one character of `s` (or, for an empty pattern,
consumes fuel until the base case, which the repository never hits: the
only pattern used is `"&"`). -/
def goReplaceAux : Nat → List Char → List Char → List Char → List Char
  | 0, s, _, _ => s
  | _ + 1, [], _, _ => []
  | n + 1, c :: rest, old, new =>
    if old ≠ [] ∧ old.isPrefixOf (c :: rest) then
      new ++ goReplaceAux n ((c :: rest).drop old.length) old new
    else
      c :: goReplaceAux n rest old new

/-- Model of Go `strings.Replace(s, old, new, -1)` for non-empty `old`:
replaces every non-overlapping, leftmost-first occurrence. -/
def goReplaceAll (s old new : String) : String :=
  String.mk (goReplaceAux s.data.length s.data old.data new.data)

/-! ## Selector resolver (ast package)

Embeds `ghettoResolvedParentInject`, `ghettoParentInject` and `mergeLits`
from the selector-resolution file of the ast package. -/

/-- The parent-reference literal `&` (source: `var amper = "&"`). -/
def amper : String := "&"

/-- Embeds `ghettoResolvedParentInject(delim, pval, nodes...)`: with an
empty resolved parent the child fragments are simply joined with `", "`;
otherwise the parent value is split into alternatives on `", "` and every
parent alternative is paired with every child fragment, substituting the
parent for `&` when the fragment mentions `&` and prefixing
`parent ++ delim` otherwise.  The nested `append` loops of the source are
rendered as nested left folds. -/
def ghettoResolvedParentInject (delim pval : String) (nodes : List String) : String :=
  let gdelim := ", "
  if pval.length = 0 then
    goJoin nodes gdelim
  else
    let sdelim := ", "
    let parts := goSplit pval sdelim
    let ret := parts.foldl
      (fun acc part =>
        nodes.foldl
          (fun acc node =>
            acc ++ [if goContains node amper then goReplaceAll node "&" part
                    else part ++ delim ++ node])
          acc)
      []
    goJoin ret gdelim

/-- Failure modes of `mergeLits`: the explicit `Incompatible lengths` panic,
and the Go runtime panics the loop body can raise (index out of range on
`rights[i/mod]`, integer division by zero in `(i+1)%mod` when `mod` is 0). -/
inductive MergeErr where
  | incompatibleLengths
  | indexOutOfRange
  | integerDivideByZero
  deriving DecidableEq, Repr

/-- Embeds Go `math.Remainder(float64(x), float64(y)) > 0` for natural `x`
and `y` as used by `mergeLits`.  IEEE-754 remainder is `x - y*n` with `n`
the integer nearest to `x/y` (ties to even); it is exact on the integer
arguments that arise here, and may be negative.  `y = 0` gives NaN in Go,
for which the `> 0` comparison is false. -/
def goRemainderPos (x y : Nat) : Bool :=
  if y = 0 then false
  else
    let q := x / y
    let r := x % y
    let n : Nat :=
      if 2 * r < y then q
      else if 2 * r > y then q + 1
      else if q % 2 = 0 then q else q + 1
    decide (0 < (x : Int) - (y : Int) * (n : Int))

/-- The body of the `for i := range lefts` loop of `mergeLits`: appends
`lefts[i]`, and after every `mod`-th left element appends `rights[i/mod]`.
Index accesses and the modulus mirror Go runtime behaviour: `rights` access
out of range and `% 0` are runtime panics. -/
def mergeStep (lefts rights : List String) (md : Nat) :
    List Nat → Except MergeErr (List String)
  | [] => Except.ok []
  | i :: is =>
    match lefts.get? i with
    | none => Except.error MergeErr.indexOutOfRange
    | some lv =>
      if md = 0 then Except.error MergeErr.integerDivideByZero
      else if (i + 1) % md = 0 then
        match rights.get? (i / md) with
        | none => Except.error MergeErr.indexOutOfRange
        | some rv => (mergeStep lefts rights md is).map fun rest => lv :: rv :: rest
      else
        (mergeStep lefts rights md is).map fun rest => lv :: rest

/-- Embeds `mergeLits(delim, left, right)`: splits both sides on `delim`,
reports `Incompatible lengths` when the IEEE remainder of the two lengths
is positive, and otherwise interleaves one right element after every
`mod = ll/lr` left elements. -/
def mergeLits (delim left right : String) : Except MergeErr String :=
  let lefts := goSplit left delim
  let rights := goSplit right delim
  let ll := lefts.length
  let lr := rights.length
  if goRemainderPos ll lr then
    Except.error MergeErr.incompatibleLengths
  else
    let md := ll / lr
    (mergeStep lefts rights md (List.range ll)).map fun ss => goJoin ss delim

/-! ## Expression evaluator (compiler package)

Embeds `calculateExprs`, `resolveIdent`, `resolveExpr` and `simplifyExprs`
from compile.go over the expression fragment those functions handle:
basic literals, identifiers whose `Obj.Decl` chain is itself an expression,
binary expressions, call expressions (represented by the callee's bound
declaration `Fun.(*ast.Ident).Obj.Decl`), parenthesised expressions and
`ast.Value`.  Identifier declarations bound to `ValueSpec`/`AssignStmt`
records belong to the scope subsystem and are outside this fragment (no
claim quantifies over them).  Go panics (failed type assertions, slice
bounds, index out of range, explicit `panic`) are `Except.error`; the
function-valued `error` returns of the source are nil on every path of the
fragment (`calculateExprs`'s `err` is never assigned and its operand-nil
check needs a typed nil), so `Except.ok` carries exactly the `out, nil`
results. -/

/-- Token kinds of `token` used by the evaluator. -/
inductive TokKind where
  | INT
  | STRING
  | QSTRING
  | COLOR
  | VAR
  deriving DecidableEq, Repr

/-- Binary operators appearing in property-value expressions, with
`Op.String()` rendering. -/
inductive GoOp where
  | ADD
  | SUB
  | MUL
  | QUO
  deriving DecidableEq, Repr

/-- Go `token.Token.String()` for the embedded operators. -/
def GoOp.str : GoOp → String
  | .ADD => "+"
  | .SUB => "-"
  | .MUL => "*"
  | .QUO => "/"

/-- The `ast.Expr` fragment of compile.go's evaluator.  `identE`'s argument
is the identifier's `Obj.Decl` when that declaration is itself an
expression (`none` models a nil `Obj`); `call`'s argument is the callee's
`Fun.(*ast.Ident).Obj.Decl`. -/
inductive Expr where
  | basicLit (kind : TokKind) (value : String)
  | identE (name : String) (obj : Option Expr)
  | binary (op : GoOp) (x y : Expr)
  | call (objDecl : Option Expr)
  | paren (x : Expr)
  | valueE

/-- Go run-time failures of the evaluator fragment. -/
inductive EvalFail where
  | castBasicLit
  | castExpr
  | indexOutOfRange
  | sliceBounds
  | panicValue
  deriving DecidableEq, Repr

/-- A color-arithmetic step `bx.Op(bin.Op, by)` of the ast package (that
method is not part of the embedded sources; the spec describes it as
"color operands attempt arithmetic and fall back to string concatenation
on failure", so it is kept abstract as a parameter returning the result
value or `none` for failure). -/
def ColorOp : Type := GoOp → TokKind × String → TokKind × String → Option String

/-- The operand conversion at the top of `calculateExprs`: a `CallExpr` is
replaced by its callee's bound declaration (`Fun.(*ast.Ident).Obj.Decl`
asserted to `ast.Expr`); other operands pass through. -/
def convOperand : Expr → Except EvalFail Expr
  | .call none => .error .castExpr
  | .call (some d) => .ok d
  | e => .ok e

/-- Embeds `calculateExprs(ctx, bin)`: converts call operands, asserts both
operands to basic literals, attempts color math with string-concatenation
fallback for a color left operand, renders `INT op non-INT` as literal
string concatenation around the operator, and otherwise returns the empty
string with a nil error. -/
def calculateExprs (colorOp : ColorOp) (op : GoOp) (x y : Expr) :
    Except EvalFail String := do
  let x' ← convOperand x
  let y' ← convOperand y
  match x', y' with
  | .basicLit kx vx, .basicLit ky vy =>
    if kx = TokKind.COLOR then
      match colorOp op (kx, vx) (ky, vy) with
      | some zv => .ok zv
      | none => .ok (vx ++ vy)
    else if kx = TokKind.INT ∧ ky ≠ TokKind.INT then
      .ok (vx ++ op.str ++ vy)
    else
      .ok ""
  | _, _ => .error .castBasicLit

/-- Embeds `resolveIdent(ctx, ident)` on the expression fragment: a nil
`Obj` yields the name; a declaration that is an identifier resolves
recursively; a declaration that is a basic literal takes the branch that
only reassigns `ident.Obj.Decl`, leaving `out` at its zero value `""`; any
other declaration falls to the default branch which pushes the name. -/
def resolveIdent (name : String) : Option Expr → String
  | none => name
  | some (.identE n2 o2) => resolveIdent n2 o2
  | some (.basicLit _ _) => ""
  | some _ => name

/-- Does `exprs[i].(*ast.BasicLit)` succeed with `Kind == token.QSTRING`? -/
def isQstringLit : Expr → Bool
  | .basicLit k _ => k = TokKind.QSTRING
  | _ => false

/-- The tail of `simplifyExprs` after the resolution loop: computes
`start`/`end` from leading/trailing quoted-string markers and either
re-quotes the sliced join or joins everything.  `exprs[0]` on an empty
list and a slice `sums[1:end]` with `end < 1` are Go run-time panics. -/
def simplifyCore (exprs : List Expr) (sums : List String) :
    Except EvalFail String :=
  match exprs.head?, exprs.getLast? with
  | none, _ => .error .indexOutOfRange
  | _, none => .error .indexOutOfRange
  | some firstE, some lastE =>
    let lenE := exprs.length
    let start : Nat := if isQstringLit firstE then 1 else 0
    let endI : Int := if isQstringLit lastE then (lenE : Int) - 2 else (lenE : Int)
    if start = 1 then
      if endI < 1 ∨ (lenE : Int) < endI then .error .sliceBounds
      else .ok ("\"" ++ goJoin ((sums.drop 1).take (endI.toNat - 1)) " " ++ "\"")
    else
      .ok (goJoin sums " ")

/-- Embeds `resolveExpr(ctx, expr)`.  The `ParenExpr` case is
`simplifyExprs(ctx, []ast.Expr{v.X})` unfolded to the singleton list (the
resolution loop over `[v.X]` followed by `simplifyCore`). -/
def resolveExpr (colorOp : ColorOp) : Expr → Except EvalFail String
  | .valueE => .error .panicValue
  | .binary op x y => calculateExprs colorOp op x y
  | .call none => .error .castExpr
  | .call (some d) =>
    match d with
    | .basicLit _ v => .ok v
    | _ => .error .castBasicLit
  | .paren x =>
    match resolveExpr colorOp x with
    | .error e => .error e
    | .ok s => simplifyCore [x] [s]
  | .identE n o => .ok (resolveIdent n o)
  | .basicLit k v => .ok (if k = TokKind.VAR then "" else v)

/-- The resolution loop of `simplifyExprs`: resolves each value in order,
stopping at the first failure. -/
def simplifyList (colorOp : ColorOp) : List Expr → Except EvalFail (List String)
  | [] => .ok []
  | e :: es => do
    let s ← resolveExpr colorOp e
    let rest ← simplifyList colorOp es
    return s :: rest

/-- Embeds `simplifyExprs(ctx, exprs)`: resolve every value, then apply the
quoted-string-marker slicing and joining. -/
def simplifyExprs (colorOp : ColorOp) (exprs : List Expr) :
    Except EvalFail String := do
  let sums ← simplifyList colorOp exprs
  simplifyCore exprs sums

/-- The resolved value of a basic literal (`VAR` literals take the empty
branch of `resolveExpr`). -/
def litResolve : Expr → String
  | .basicLit k v => if k = TokKind.VAR then "" else v
  | _ => ""

/-- A color-op instance for closed evaluations (its value is irrelevant to
every claim settled here; color math never runs on non-color operands). -/
def noColorOp : ColorOp := fun _ _ _ => none

/-! ## Code generator (compiler package)

Embeds the `Context` printing state and the walk of compile.go:
`out`, `blockIntro`, `blockOutro`, `printSelStmt`, `printRuleSpec`, the
`*ast.BlockStmt` case of `Visit`, and the trailing-newline fix of
`Context.run`.  The `Scope` type (`NewScope`, `CloseScope`, `RuleLen`,
`RuleAdd`) is repository code that is not among the embedded sources, so
its rule counting is modelled from the spec. -/

/-- The printing state of `compiler.Context`: output buffer, indent level,
the lazy-brace flag `firstRule`, the active resolved selector, the scope
chain's per-frame rule counts (innermost first) and the recorded
evaluation error. -/
structure Ctx where
  buf : String
  level : Nat
  firstRule : Bool
  activeSel : Option String
  scope : List Nat
  err : Option EvalFail

/-- `Context.Init()`: empty buffer, zero-valued `firstRule` and `level`,
and one scope frame (`NewScope(empty)`). -/
def initCtx : Ctx :=
  { buf := "", level := 0, firstRule := false, activeSel := none,
    scope := [0], err := none }

/-- Modelled from the spec: `Scope.RuleLen` of the missing scope
implementation — "each frame counts declared rules (to suppress
empty-block braces)" — reads the innermost frame's count. -/
def scopeRuleLen (c : Ctx) : Nat :=
  c.scope.headD 0

/-- Modelled from the spec: `Scope.RuleAdd` increments the innermost
frame's declared-rule count. -/
def scopeRuleAdd (c : Ctx) : Ctx :=
  match c.scope with
  | [] => c
  | n :: rest => { c with scope := (n + 1) :: rest }

/-- Embeds `Context.out(v)`: a value starting with a newline is written
verbatim, anything else is preceded by `2*level` spaces.  (The source
slices a fixed 46-space array, a run-time panic beyond level 23; the
documents considered stay far below that.) -/
def ctxOut (c : Ctx) (v : String) : Ctx :=
  if v.data.head? = some '\n' then { c with buf := c.buf ++ v }
  else
    { c with buf := c.buf ++ String.mk (List.replicate (2 * c.level) ' ') ++ v }

/-- Embeds `Context.blockIntro()`: inside an open block just a newline;
on the first rule of a block, a separating newline for non-empty buffers
at level 0, then the active selector (or `MISSING`) with ` {` and a
newline, indented via `out`. -/
def blockIntro (c : Ctx) : Ctx :=
  if ¬ c.firstRule then { c with buf := c.buf ++ "\n" }
  else
    let c := { c with firstRule := false }
    let c :=
      if 0 < c.buf.length ∧ c.level = 0 then { c with buf := c.buf ++ "\n" }
      else c
    let sel := match c.activeSel with
      | some s => s
      | none => "MISSING"
    ctxOut c (sel ++ " \x7b\n")

/-- Embeds `Context.blockOutro()`: nothing when no rule was printed at
this level, otherwise ` }` and a newline on the current line, resetting
`firstRule`. -/
def blockOutro (c : Ctx) : Ctx :=
  if c.firstRule then c
  else { c with firstRule := true, buf := c.buf ++ " \x7d\n" }

/-- Embeds `printSelStmt`: records the statement's resolved selector. -/
def printSelStmt (c : Ctx) (resolved : String) : Ctx :=
  { c with activeSel := some resolved }

/-- Embeds `printRuleSpec`: lazy block introduction, rule counting,
`  name: ` via `out`, then the simplified value list and `;` appended to
the buffer (on failure the empty string is printed and the error recorded
in `ctx.err`). -/
def printRuleSpec (colorOp : ColorOp) (c : Ctx) (name : String)
    (values : List Expr) : Ctx :=
  let c := blockIntro c
  let c := scopeRuleAdd c
  let c := ctxOut c ("  " ++ name ++ ": ")
  match simplifyExprs colorOp values with
  | .ok s => { c with buf := c.buf ++ s ++ ";" }
  | .error e => { c with err := some e, buf := c.buf ++ ";" }

/-- The statement fragment of the AST walk needed by the compilation
claims: a resolved selector statement with its block, and a rule
declaration.  (The wrapper nodes `File`, `SelDecl`, `DeclStmt`, `GenDecl`
print nothing and are elided from the walk order.) -/
inductive Stmt where
  | selStmt (resolved : String) (body : List Stmt)
  | ruleSpec (name : String) (values : List Expr)

/-- Embeds the depth-first walk of `Context.Visit`: a rule spec prints via
`printRuleSpec`; a selector statement records its resolved selector and
then runs the `*ast.BlockStmt` case — conditional indent bump with a
closing `  }` when re-entering after printed rules, a fresh scope frame,
the children in order, indent restore, `CloseScope`, `blockOutro` and a
reset of `firstRule`.  `fuel` bounds nesting depth (the Go recursion is
structural on the finite tree). -/
def walkStmt (colorOp : ColorOp) : Nat → Ctx → Stmt → Ctx
  | _, c, .ruleSpec name values =>
    if c.err.isSome then c else printRuleSpec colorOp c name values
  | 0, c, .selStmt _ _ => c
  | fuel + 1, c, .selStmt resolved body =>
    if c.err.isSome then c
    else
      let c := printSelStmt c resolved
      let c :=
        if 0 < scopeRuleLen c then
          let c := { c with level := c.level + 1 }
          if ¬ c.firstRule then { c with buf := c.buf ++ " \x7d\n" } else c
        else c
      let c := { c with scope := 0 :: c.scope, firstRule := true }
      let c := body.foldl (walkStmt colorOp fuel) c
      let c := if 0 < c.level then { c with level := c.level - 1 } else c
      let c := { c with scope := c.scope.tail }
      let c := blockOutro c
      { c with firstRule := true }

/-- The trailing-newline fix at the end of `Context.run`: append `"\n"`
when the buffer is non-empty and its last rune is not a newline. -/
def finalizeNewline (buf : String) : String :=
  if 0 < buf.length ∧ buf.data.getLast? ≠ some '\n' then buf ++ "\n" else buf

/-- Embeds the output assembly of `Context.run` after a successful parse:
walk the declarations from the initial context, then fix the trailing
newline. -/
def runDoc (colorOp : ColorOp) (fuel : Nat) (doc : List Stmt) : String :=
  finalizeNewline ((doc.foldl (walkStmt colorOp fuel) initCtx).buf)

/-! ## `Run` error propagation (compiler package)

Embeds the control flow of `File`/`Run`/`Context.run` of compile.go over
the outcome of the external parser (`parser.ParseFile` is an external
collaborator; a failed parse yields an error naming the offending
construct and its position, a successful parse yields the tree whose walk
produces the buffer contents abstracted here as `walkOutput`). -/

/-- A compilation error as surfaced by the parser: the offending construct
and its source position. -/
structure CompileErr where
  construct : String
  srcPos : Nat
  deriving DecidableEq, Repr

/-- The outcome of the external `parser.ParseFile` call together with the
buffer the subsequent walk would produce. -/
inductive ParseResult where
  | parsed (walkOutput : String)
  | failed (e : CompileErr)

/-- Embeds `Context.run`: a parse error is returned as `("", err)`; on
success the walked buffer with the trailing-newline fix and a nil error. -/
def contextRun : ParseResult → String × Option CompileErr
  | .failed e => ("", some e)
  | .parsed w => (finalizeNewline w, none)

/-- How the package-level `Run` ends: either it returns a value-error pair
to its caller, or `log.Fatal` terminates the process. -/
inductive RunOutcome where
  | returned (out : String) (err : Option CompileErr)
  | fatalExit (e : CompileErr)
  deriving DecidableEq, Repr

/-- Embeds the package-level `Run(path)`: builds a context, calls
`Context.run`, and on a non-nil error calls `log.Fatal(err)` — process
termination — so only the success pair is ever returned. -/
def RunGo (pr : ParseResult) : RunOutcome :=
  match contextRun pr with
  | (_, some e) => RunOutcome.fatalExit e
  | (out, none) => RunOutcome.returned out none

/-! ## Scanner (lexer package)

Embeds the lexer over raw input bytes (`List Nat`): the decoding primitive
`Advance` with its end-of-input and sticky invalid-encoding sentinels, the
conditional-consume primitives, the pull interface `Next`, and the state
machine `Action`/`Math`/`Directive`/`Paren`/`Comment`/`Var`/`Text`/`File`
in trampolined form (every state-to-state transfer in the source is a tail
call, so a state function is rendered as one step returning the successor
state).  Go's `pos`/`width` are ints; the only way `pos` can leave `Nat`
is the double `Backup` of the dispatcher's `/` fallthrough (the inner
`Accept` has already reset `width` to the width of the rune after `/`), so
the model keeps `pos : Nat` plus a poison flag `neg` set on underflow;
every operation that would slice `input[pos:]` reports Go's slice panic
when the flag is set.  The `unicode` classifier tables and the external
`token.Lookup` of the wellington token package are abstracted as a
`RuneClass` parameter. -/

/-- `utf8.RuneError` (U+FFFD). -/
def RuneErrorVal : Nat := 0xFFFD

/-- The lexer's end-of-input sentinel rune, `const EOF rune = 0x04`. -/
def eofRune : Nat := 0x04

/-- Embeds Go `utf8.DecodeRuneInString` on the remaining bytes: empty
input gives `(RuneError, 0)`; an ASCII byte decodes to itself with width
1; multi-byte sequences respect the Go accept ranges (no overlong forms,
no surrogates, max U+10FFFF); anything else — including a truncated
sequence — gives `(RuneError, 1)`. -/
def utf8DecodeRune : List Nat → Nat × Nat
  | [] => (RuneErrorVal, 0)
  | b0 :: rest =>
    if b0 < 0x80 then (b0, 1)
    else if b0 < 0xC2 ∨ 0xF4 < b0 then (RuneErrorVal, 1)
    else if b0 ≤ 0xDF then
      match rest with
      | b1 :: _ =>
        if 0x80 ≤ b1 ∧ b1 ≤ 0xBF then ((b0 % 0x20) * 0x40 + b1 % 0x40, 2)
        else (RuneErrorVal, 1)
      | [] => (RuneErrorVal, 1)
    else if b0 ≤ 0xEF then
      match rest with
      | b1 :: b2 :: _ =>
        if (if b0 = 0xE0 then 0xA0 else 0x80) ≤ b1 ∧
            b1 ≤ (if b0 = 0xED then 0x9F else 0xBF) ∧
            0x80 ≤ b2 ∧ b2 ≤ 0xBF then
          ((b0 % 0x10) * 0x1000 + (b1 % 0x40) * 0x40 + b2 % 0x40, 3)
        else (RuneErrorVal, 1)
      | _ => (RuneErrorVal, 1)
    else
      match rest with
      | b1 :: b2 :: b3 :: _ =>
        if (if b0 = 0xF0 then 0x90 else 0x80) ≤ b1 ∧
            b1 ≤ (if b0 = 0xF4 then 0x8F else 0xBF) ∧
            0x80 ≤ b2 ∧ b2 ≤ 0xBF ∧ 0x80 ≤ b3 ∧ b3 ≤ 0xBF then
          ((b0 % 8) * 0x40000 + (b1 % 0x40) * 0x1000 + (b2 % 0x40) * 0x40 +
            b3 % 0x40, 4)
        else (RuneErrorVal, 1)
      | _ => (RuneErrorVal, 1)

/-- Fuelled validity scan: the byte list decodes boundary after boundary
without ever producing the `(RuneError, 1)` invalid sentinel. -/
def validUTF8Aux : Nat → List Nat → Bool
  | 0, bs => bs.isEmpty
  | _ + 1, [] => true
  | f + 1, b :: rest =>
    let (r, w) := utf8DecodeRune (b :: rest)
    if r = RuneErrorVal ∧ w = 1 then false
    else validUTF8Aux f ((b :: rest).drop w)

/-- A byte list is valid UTF-8 in the sense the scanner needs: decoding
from the start never hits the invalid sentinel (widths are then ≥ 1, so
the scan visits every boundary). -/
def validUTF8 (bs : List Nat) : Bool :=
  validUTF8Aux bs.length bs

/-- Token kinds of the wellington token package used by the scanner. -/
inductive ItemTy where
  | eofItem
  | errorItem
  | text
  | cmd
  | cmdVar
  | varDecl
  | sub
  | file
  | importTok
  | includeTok
  | eachTok
  | funcTok
  | mixinTok
  | ifTok
  | elseTok
  | mult
  | plus
  | minus
  | intp
  | lparen
  | rparen
  | lbracket
  | rbracket
  | colon
  | semic
  | cmt
  deriving DecidableEq, Repr

/-- A scanned item: kind, source byte offset, raw lexeme bytes. -/
structure GoItem where
  type : ItemTy
  pos : Nat
  value : List Nat
  deriving DecidableEq, Repr

/-- The scan states (a `nil` state function is `Option.none`). -/
inductive StateName where
  | action
  | math
  | directive
  | paren
  | comment
  | varState
  | text
  | file
  deriving DecidableEq, Repr

/-- The `Lexer` struct: input, lexeme start, cursor, width and value of
the last decode, the pending-output queue, the active state, and the
`neg` poison flag recording that Go's int cursor went below zero. -/
structure GoLexer where
  input : List Nat
  start : Nat
  pos : Nat
  width : Nat
  last : Nat
  neg : Bool
  items : List GoItem
  state : Option StateName
  deriving DecidableEq, Repr

/-- Go run-time failures of the scanner: the slice panic on a negative
cursor, the nil-pointer dereference of `l.items.Back().Value` in `Paren`
when the queue is empty, and divergence of an internal scan loop
(modelled as fuel exhaustion; Go loops forever there). -/
inductive LexFail where
  | slicePanic
  | nilDeref
  | fuelOut
  deriving DecidableEq, Repr

/-- The abstracted external collaborators: the `unicode` classification
tables and `token.Lookup` of the wellington token package (positive
result means a reserved keyword). -/
structure RuneClass where
  isSpace : Nat → Bool
  isNumber : Nat → Bool
  isLetter : Nat → Bool
  isGraphic : Nat → Bool
  lookup : List Nat → Nat

/-- ASCII bytes of a literal. -/
def strBytes (s : String) : List Nat :=
  s.data.map Char.toNat

/-- `Symbols`, the raw string `/\.*-_` of allowed symbol runes. -/
def symbolBytes : List Nat := strBytes "/\\.*-_"

/-- Embeds `IsAllowedRune`: number, letter, or one of `Symbols`. -/
def isAllowedRune (rc : RuneClass) (r : Nat) : Bool :=
  rc.isNumber r || rc.isLetter r || symbolBytes.contains r

/-- Embeds `IsSymbol`: one of `(),;{}#:`. -/
def isSymbolGo (r : Nat) : Bool :=
  (strBytes "(),;{}#:").contains r

/-- Embeds `Lexer.Advance`: past the end, width is zeroed and the
end-of-input sentinel returned; on the invalid sentinel `(RuneError, 1)`
the cursor does not move (making the error sticky); otherwise the cursor
moves by the decoded width.  A poisoned (negative) cursor panics slicing
`l.input[l.pos:]`. -/
def advance (l : GoLexer) : Except LexFail (GoLexer × Nat × Nat) :=
  if l.neg then .error .slicePanic
  else if l.input.length ≤ l.pos then .ok ({ l with width := 0 }, eofRune, 0)
  else
    let (r, w) := utf8DecodeRune (l.input.drop l.pos)
    if r = RuneErrorVal ∧ w = 1 then .ok ({ l with last := r, width := w }, r, w)
    else .ok ({ l with last := r, width := w, pos := l.pos + w }, r, w)

/-- Embeds `Lexer.Backup`: moves the cursor back by the width of the most
recent decode; going below zero sets the poison flag. -/
def backup (l : GoLexer) : GoLexer :=
  { l with pos := l.pos - l.width, neg := l.neg || decide (l.pos < l.width) }

/-- Embeds `Lexer.Peek`. -/
def peek (l : GoLexer) : Except LexFail (GoLexer × Nat × Nat) := do
  let (l1, r, n) ← advance l
  return (backup l1, r, n)

/-- Embeds `Lexer.Ignore`. -/
def ignore (l : GoLexer) : GoLexer :=
  { l with start := l.pos }

/-- Embeds `Lexer.Current`: the bytes from lexeme start to cursor. -/
def currentLex (l : GoLexer) : List Nat :=
  (l.input.drop l.start).take (l.pos - l.start)

/-- Embeds `Lexer.Emit(t)`: enqueue the current lexeme and advance the
lexeme start to the cursor. -/
def emit (t : ItemTy) (l : GoLexer) : GoLexer :=
  { l with items := l.items ++ [⟨t, l.start, currentLex l⟩], start := l.pos }

/-- Embeds `Lexer.Accept(valid)`: consume one rune if it is in `valid`,
else back up. -/
def accept (valid : List Nat) (l : GoLexer) : Except LexFail (GoLexer × Bool) := do
  let (l1, r, _) ← advance l
  if valid.contains r then return (l1, true) else return (backup l1, false)

/-- Embeds `Lexer.AcceptFunc(fn)`: end-of-input and the invalid sentinel
refuse without backing up; otherwise consume when `fn` holds. -/
def acceptFunc (fn : Nat → Bool) (l : GoLexer) : Except LexFail (GoLexer × Bool) := do
  let (l1, r, n) ← advance l
  if n = 0 then return (l1, false)
  else if r = RuneErrorVal ∧ n = 1 then return (l1, false)
  else if fn r then return (l1, true)
  else return (backup l1, false)

/-- Fuelled worker for `acceptRunFunc`. -/
def acceptRunFuncAux (fn : Nat → Bool) : Nat → GoLexer → Except LexFail GoLexer
  | 0, _ => .error .fuelOut
  | f + 1, l => do
    let (l1, ok) ← acceptFunc fn l
    if ok then acceptRunFuncAux fn f l1 else return l1

/-- Embeds `Lexer.AcceptRunFunc(fn)`: every accepted rune moves the cursor
by at least one byte, so `remaining + 1` fuel always suffices. -/
def acceptRunFunc (fn : Nat → Bool) (l : GoLexer) : Except LexFail GoLexer :=
  acceptRunFuncAux fn (l.input.length - l.pos + 1) l

/-- Embeds `Lexer.AcceptString(s)`: consume exactly the bytes of `s` when
they are next; too little input or a mismatch refuses without moving. -/
def acceptString (s : List Nat) (l : GoLexer) : Except LexFail (GoLexer × Bool) :=
  if l.neg then .error .slicePanic
  else if l.input.length - l.pos < s.length then .ok (l, false)
  else if (l.input.drop l.pos).take s.length = s then
    .ok ({ l with pos := l.pos + s.length }, true)
  else .ok (l, false)

/-- The rendering `fmt.Sprintf("%s", item)` via `Item.String()`: an
end-of-stream item prints as `EOF`, anything else as its raw lexeme. -/
def itemStr (i : GoItem) : List Nat :=
  if i.type = ItemTy.eofItem then strBytes "EOF" else i.value

/-- One iteration of the dispatcher loop `Lexer.Action` (the loop carries
no state besides the lexer, so `continue` is a transfer back to `action`):
end of input enqueues the end-of-stream item and goes terminal; whitespace
is discarded; a structural symbol backs up, flushes any pending text and
transfers to `Paren`; `/` followed by `/` or `*` transfers to `Comment`,
otherwise the fallthrough backs up once more (with `width` now holding the
width of the rune after the `/`, the underflow source) and transfers to
`Math`, as do the arithmetic symbols; `@` to `Directive`, a quote to
`File`, `$` to `Var`, an allowed rune to `Text`; anything else is silently
dropped. -/
def runAction (rc : RuneClass) (l : GoLexer) :
    Except LexFail (GoLexer × Option StateName) := do
  let (l1, r, _n) ← advance l
  if r = eofRune then
    return ({ l1 with items := l1.items ++ [⟨ItemTy.eofItem, l1.start, []⟩] },
      none)
  else if rc.isSpace r then
    return (ignore l1, some .action)
  else if isSymbolGo r then
    let l2 := backup l1
    let l2 := if 0 < (currentLex l2).length then emit ItemTy.text l2 else l2
    return (l2, some .paren)
  else if r = 0x2F then
    let (l2, ok) ← accept (strBytes "/*") l1
    if ok then return (l2, some .comment)
    else return (backup l2, some .math)
  else if (strBytes "*-+/").contains r then
    return (backup l1, some .math)
  else if r = 0x40 then
    return (backup l1, some .directive)
  else if r = 0x22 ∨ r = 0x27 then
    return (l1, some .file)
  else if r = 0x24 then
    return (l1, some .varState)
  else if isAllowedRune rc r then
    return (backup l1, some .text)
  else
    return (l1, some .action)

/-- Embeds `Lexer.Math`: classify one arithmetic symbol (`*` and `/` both
become the multiply token) and return to dispatch. -/
def runMath (l : GoLexer) : Except LexFail (GoLexer × Option StateName) := do
  let (l1, ok) ← accept (strBytes "*") l
  if ok then return (emit ItemTy.mult l1, some .action) else
  let (l2, ok) ← accept (strBytes "+") l1
  if ok then return (emit ItemTy.plus l2, some .action) else
  let (l3, ok) ← accept (strBytes "-") l2
  if ok then return (emit ItemTy.minus l3, some .action) else
  let (l4, ok) ← accept (strBytes "/") l3
  if ok then return (emit ItemTy.mult l4, some .action) else
  return (l4, some .action)

/-- Embeds `Lexer.Directive`: longest exact match against the at-rule
keywords, in source order; an unmatched `@`-form consumes the `@` and
falls through to `Text`. -/
def runDirective (l : GoLexer) : Except LexFail (GoLexer × Option StateName) := do
  let (l1, ok) ← acceptString (strBytes "@import") l
  if ok then return (emit ItemTy.importTok l1, some .action) else
  let (l2, ok) ← acceptString (strBytes "@include") l1
  if ok then return (emit ItemTy.includeTok l2, some .action) else
  let (l3, ok) ← acceptString (strBytes "@each") l2
  if ok then return (emit ItemTy.eachTok l3, some .action) else
  let (l4, ok) ← acceptString (strBytes "@function") l3
  if ok then return (emit ItemTy.funcTok l4, some .action) else
  let (l5, ok) ← acceptString (strBytes "@mixin") l4
  if ok then return (emit ItemTy.mixinTok l5, some .action) else
  let (l6, ok) ← acceptString (strBytes "@if") l5
  if ok then return (emit ItemTy.ifTok l6, some .action) else
  let (l7, ok) ← acceptString (strBytes "@else") l6
  if ok then return (emit ItemTy.elseTok l7, some .action) else
  let (l8, _) ← accept (strBytes "@") l7
  return (l8, some .text)

/-- Embeds `Lexer.Paren`: interpolation-open, grouping and structural
symbols.  The `(` branch remembers the most recently queued item, emits
the paren, and either scans a `$`-bound name then forces `File`
(quoted-argument mode), or — when the remembered item's text is
`image-height`/`image-width` — forces `File`; a nil remembered element is
Go's nil-pointer dereference.  Unmatched bytes are consumed silently. -/
def runParen (rc : RuneClass) (l : GoLexer) :
    Except LexFail (GoLexer × Option StateName) := do
  let (l1, ok) ← acceptString (strBytes "#\x7b") l
  if ok then return (emit ItemTy.intp l1, some .action) else
  let (l2, ok) ← accept (strBytes "(") l1
  if ok then
    let lastItem := l2.items.getLast?
    let l3 := emit ItemTy.lparen l2
    let (l4, okD) ← accept (strBytes "$") l3
    if okD then do
      let l5 ← acceptRunFunc (isAllowedRune rc) l4
      let l6 := emit ItemTy.sub l5
      let (l7, _) ← accept (strBytes ", ") l6
      return (l7, some .file)
    else
      match lastItem with
      | none => .error .nilDeref
      | some it =>
        if itemStr it = strBytes "image-height" ∨
            itemStr it = strBytes "image-width" then
          return (l4, some .file)
        else
          return (l4, some .action)
  else
  let (l5, ok) ← accept (strBytes ")") l2
  if ok then return (emit ItemTy.rparen l5, some .action) else
  let (l6, ok) ← accept (strBytes "\x7b") l5
  if ok then return (emit ItemTy.lbracket l6, some .action) else
  let (l7, ok) ← accept (strBytes "\x7d") l6
  if ok then return (emit ItemTy.rbracket l7, some .action) else
  let (l8, ok) ← accept (strBytes ":") l7
  if ok then return (emit ItemTy.colon l8, some .action) else
  let (l9, ok) ← accept (strBytes ";") l8
  if ok then return (emit ItemTy.semic l9, some .action) else
  let (l10, _, _) ← advance l9
  return (l10, some .action)

/-- The block-comment scan loop: run to the first `/` immediately after a
`*`, or truncate (with a log line) at end of input.  `remaining + 1` fuel
suffices on input whose reachable boundaries decode validly; on a sticky
invalid decode the Go loop never ends. -/
def commentBlockAux : Nat → Nat → GoLexer → Except LexFail GoLexer
  | 0, _, _ => .error .fuelOut
  | f + 1, lastR, l => do
    let (l1, r, _) ← advance l
    if lastR = 0x2A ∧ r = 0x2F then return l1
    else if r = eofRune then return l1
    else commentBlockAux f r l1

/-- The line-comment scan loop: run to the first non-graphic rune. -/
def commentLineAux (rc : RuneClass) : Nat → GoLexer → Except LexFail GoLexer
  | 0, _ => .error .fuelOut
  | f + 1, l => do
    let (l1, r, _) ← advance l
    if ¬ rc.isGraphic r then return l1
    else commentLineAux rc f l1

/-- Embeds `Lexer.Comment`: dispatch on the two-byte lexeme (`/*` or
`//`), scan the body, emit one comment token; any other lexeme falls out
of the switch and returns to dispatch. -/
def runComment (rc : RuneClass) (l : GoLexer) :
    Except LexFail (GoLexer × Option StateName) := do
  if currentLex l = strBytes "/*" then
    let l1 ← commentBlockAux (l.input.length - l.pos + 1) 0 l
    return (emit ItemTy.cmt l1, some .action)
  else if currentLex l = strBytes "//" then
    let l1 ← commentLineAux rc (l.input.length - l.pos + 1) l
    return (emit ItemTy.cmt l1, some .action)
  else
    return (l, some .action)

/-- Embeds `Lexer.Var`: scan the `$`-prefixed identifier, then peek — a
following `:` makes it a declaration token, anything else a
substitution token. -/
def runVar (rc : RuneClass) (l : GoLexer) :
    Except LexFail (GoLexer × Option StateName) := do
  let (l1, _) ← accept (strBytes "$") l
  let l2 ← acceptRunFunc (isAllowedRune rc) l1
  let (l3, r, _) ← peek l2
  if r = 0x3A then return (emit ItemTy.varDecl l3, some .action)
  else return (emit ItemTy.sub l3, some .action)

/-- The fixed builtin-command list of `Lexer.Text`, in source order (the
duplicates of the source are kept). -/
def textCmds : List (List Nat) :=
  [strBytes "sprite-width", strBytes "sprite-height", strBytes "sprite-file",
   strBytes "sprite-height", strBytes "sprite-path", strBytes "sprite-position",
   strBytes "sprite-width", strBytes "sprite-url", strBytes "sprite-dimensions",
   strBytes "sprite-map-name", strBytes "sprite-names",
   strBytes "image-url", strBytes "inline-image",
   strBytes "image-width", strBytes "image-height"]

/-- The command-matching loop of `Lexer.Text`: first exact match wins. -/
def tryCmds : List (List Nat) → GoLexer → Except LexFail (GoLexer × Bool)
  | [], l => .ok (l, false)
  | c :: cs, l => do
    let (l1, ok) ← acceptString c l
    if ok then return (l1, true) else tryCmds cs l1

/-- Embeds `Lexer.Text`: strip a leading bare `:`; try `sprite-map`
(variadic command), then the builtin list, then bare `sprite`; a lone
leading `-` is discarded and `Text` retried; otherwise consume the run of
allowed runes as plain text. -/
def runText (rc : RuneClass) (l : GoLexer) :
    Except LexFail (GoLexer × Option StateName) := do
  let l0 := if currentLex l = strBytes ":" then ignore l else l
  let (l1, ok) ← acceptString (strBytes "sprite-map") l0
  if ok then return (emit ItemTy.cmdVar l1, some .action) else
  let (l2, ok) ← tryCmds textCmds l1
  if ok then return (emit ItemTy.cmd l2, some .action) else
  let (l3, ok) ← acceptString (strBytes "sprite") l2
  if ok then return (emit ItemTy.cmd l3, some .action) else
  let (l4, ok) ← accept (strBytes "-") l3
  if ok then return (ignore l4, some .text) else
  let l5 ← acceptRunFunc (isAllowedRune rc) l4
  return (emit ItemTy.text l5, some .action)

/-- Embeds `Lexer.File`: skip one leading space (discarded), consume a run
of allowed runes, and emit a command token when the external keyword
lookup is positive, a bare file/path literal otherwise; an empty run
emits nothing. -/
def runFile (rc : RuneClass) (l : GoLexer) :
    Except LexFail (GoLexer × Option StateName) := do
  let (l1, _) ← acceptFunc rc.isSpace l
  let l2 := ignore l1
  let l3 ← acceptRunFunc (isAllowedRune rc) l2
  let l4 :=
    if 0 < (currentLex l3).length then
      if 0 < rc.lookup (currentLex l3) then emit ItemTy.cmd l3
      else emit ItemTy.file l3
    else l3
  return (l4, some .action)

/-- One state-function invocation.  In the source every state-to-state
transfer is a direct tail call; here the callee's name is returned and
`stepMachine` makes the call, which is the same control flow. -/
def runState (rc : RuneClass) : StateName → GoLexer →
    Except LexFail (GoLexer × Option StateName)
  | .action => runAction rc
  | .math => runMath
  | .directive => runDirective
  | .paren => runParen rc
  | .comment => runComment rc
  | .varState => runVar rc
  | .text => runText rc
  | .file => runFile rc

/-- The chain of direct state calls started by one `l.state(l)` call in
`Next`: states call each other until the dispatcher's end-of-input branch
returns `nil`; all emitted items accumulate in the queue meanwhile.  The
fuel bounds the length of the chain. -/
def stepMachine (rc : RuneClass) : Nat → GoLexer → StateName →
    Except LexFail GoLexer
  | 0, _, _ => .error .fuelOut
  | f + 1, l, s => do
    let (l1, next) ← runState rc s l
    match next with
    | none => return { l1 with state := none }
    | some s2 => stepMachine rc f { l1 with state := some s2 } s2

/-- Embeds `Lexer.Next`: return the queue's head if any; with a terminal
(`nil`) state return the synthetic end-of-stream item without touching
the lexer; otherwise run the state chain (which fills the queue) and pop
its first item (the chain always enqueues at least the end-of-stream
item; the synthetic fallback mirrors the loop's re-test). -/
def next (rc : RuneClass) (fuel : Nat) (l : GoLexer) :
    Except LexFail (GoItem × GoLexer) :=
  match l.items with
  | i :: rest => .ok (i, { l with items := rest })
  | [] =>
    match l.state with
    | none => .ok (⟨ItemTy.eofItem, l.start, []⟩, l)
    | some s => do
      let l1 ← stepMachine rc fuel l s
      match l1.items with
      | i :: rest => .ok (i, { l1 with items := rest })
      | [] => .ok (⟨ItemTy.eofItem, l1.start, []⟩, l1)

/-- Repeated pulls: the items of `count` successive calls to `next`,
with the lexer threaded through. -/
def pulls (rc : RuneClass) (fuel : Nat) : Nat → GoLexer →
    Except LexFail (List GoItem × GoLexer)
  | 0, l => .ok ([], l)
  | n + 1, l => do
    let (i, l1) ← next rc fuel l
    let (is, l2) ← pulls rc fuel n l1
    return (i :: is, l2)

/-- A fresh lexer over `input` started in the dispatch state (`New` with
the `Action` state function). -/
def newLexer (input : List Nat) : GoLexer :=
  { input := input, start := 0, pos := 0, width := 0, last := 0,
    neg := false, items := [], state := some .action }

/-- Every `/` byte is followed by an ASCII byte or by the end of the
input.  Under this condition the dispatcher's `/` fallthrough — whose
second `Backup` reuses the width of the rune after the `/` — backs up
exactly onto the `/`, so the cursor never underflows or leaves a rune
boundary. -/
def slashOk : List Nat → Bool
  | [] => true
  | b :: rest =>
    (if b = 0x2F then
      match rest with
      | [] => true
      | c :: _ => decide (c < 0x80)
    else true) && slashOk rest

/-- The Go `unicode` classifiers restricted to ASCII (on ASCII runes these
agree with the full tables) and an empty external keyword table; used for
closed runs of the scanner on ASCII inputs. -/
def rcGo : RuneClass :=
  { isSpace := fun r => decide (r = 9 ∨ r = 10 ∨ r = 11 ∨ r = 12 ∨ r = 13 ∨ r = 32),
    isNumber := fun r => decide (0x30 ≤ r ∧ r ≤ 0x39),
    isLetter := fun r => decide ((0x41 ≤ r ∧ r ≤ 0x5A) ∨ (0x61 ≤ r ∧ r ≤ 0x7A)),
    isGraphic := fun r => decide (0x20 ≤ r ∧ r ≤ 0x7E),
    lookup := fun _ => 0 }

/-- The state chain from `(s, l)` halts: some fuel makes `stepMachine`
finish — normally, in the terminal state with the end-of-stream item as
the last queued item, or through the one reachable run-time panic (the
nil-element dereference in `Paren`). -/
def ScanHalts (rc : RuneClass) (l : GoLexer) (s : StateName) : Prop :=
  ∃ f, (∃ l1, stepMachine rc f l s = .ok l1 ∧ l1.state = none ∧
        l1.items.getLast? = some ⟨ItemTy.eofItem, l1.start, []⟩) ∨
    stepMachine rc f l s = .error .nilDeref

/-- The invariant of the termination analysis: the poison flag is unset,
the cursor is inside the input and on a rune boundary — the remaining
bytes are valid UTF-8 — and the slash condition holds for the remaining
bytes. -/
def LexInv (l : GoLexer) : Prop :=
  l.neg = false ∧ l.pos ≤ l.input.length ∧
  validUTF8 (l.input.drop l.pos) = true ∧
  slashOk (l.input.drop l.pos) = true

/-- Scanning `bs` from the dispatch state completes normally for some
fuel (the state chain reaches the terminal state; the end-of-stream item
has then been enqueued). -/
def ScanReturnsEOF (rc : RuneClass) (bs : List Nat) : Prop :=
  ∃ f l1, stepMachine rc f (newLexer bs) .action = .ok l1

/-- The lexer state after `n` successive calls to `Advance` (a failing
call, impossible in the situations considered, keeps the state). -/
def advanceIter (l : GoLexer) : Nat → GoLexer
  | 0 => l
  | n + 1 =>
    match advance (advanceIter l n) with
    | .ok (l1, _, _) => l1
    | .error _ => advanceIter l n

/-- Transitive closure of single state-function transfers, used to chase
a chain of states back to the dispatcher. -/
inductive Reaches (rc : RuneClass) : GoLexer → StateName → GoLexer → StateName → Prop where
  | refl (l : GoLexer) (s : StateName) : Reaches rc l s l s
  | step {l l1 l2 : GoLexer} {s s2 s3 : StateName} :
      runState rc s l = .ok (l1, some s2) →
      Reaches rc { l1 with state := some s2 } s2 l2 s3 →
      Reaches rc l s l2 s3

/-- Equality of `Except` results is decidable componentwise; used to settle
closed evaluations of the fallible embedded functions by `decide`. -/
instance {ε α : Type} [DecidableEq ε] [DecidableEq α] : DecidableEq (Except ε α) :=
  fun x y =>
  match x, y with
  | .ok a, .ok b =>
    if h : a = b then .isTrue (by rw [h])
    else .isFalse (by intro hh; cases hh; exact h rfl)
  | .ok _, .error _ => .isFalse (by intro h; cases h)
  | .error _, .ok _ => .isFalse (by intro h; cases h)
  | .error e, .error f =>
    if h : e = f then .isTrue (by rw [h])
    else .isFalse (by intro hh; cases hh; exact h rfl)

/-! ## Theorems -/

/-- Folding element-appends over `nodes` is mapping. -/
theorem foldl_append_singleton {α β : Type} (f : α → β) (nodes : List α)
    (acc : List β) :
    nodes.foldl (fun a n => a ++ [f n]) acc = acc ++ nodes.map f := by
  induction nodes generalizing acc with
  | nil => simp
  | cons n ns ih => simp [ih]

/-- Folding block-appends is joining the mapped blocks. -/
theorem foldl_append_blocks {α γ : Type} (g : α → List γ)
    (parts : List α) (acc : List γ) :
    parts.foldl (fun a p => a ++ g p) acc = acc ++ (parts.map g).flatten := by
  induction parts generalizing acc with
  | nil => simp
  | cons p ps ih => simp [ih]

/-- The nested append loops of `ghettoResolvedParentInject` build the
parent-major, child-minor pairing list. -/
theorem foldl_nested_pairing {α β γ : Type} (f : α → β → γ)
    (parts : List α) (nodes : List β) (acc : List γ) :
    parts.foldl (fun a p => nodes.foldl (fun a n => a ++ [f p n]) a) acc =
      acc ++ (parts.map fun p => nodes.map (f p)).flatten := by
  have h : (fun (a : List γ) (p : α) => nodes.foldl (fun a n => a ++ [f p n]) a) =
      fun a p => a ++ nodes.map (f p) := by
    funext a p
    exact foldl_append_singleton (f p) nodes a
  rw [h, foldl_append_blocks]

/-- C2: with a non-empty resolved parent, `ghettoResolvedParentInject`
produces exactly every parent×child pairing in parent-major, child-minor
order — a fragment containing `&` has every `&` replaced by the current
parent alternative, any other fragment is prefixed by the parent
alternative and the delimiter — joined on `", "`; in particular parent
`"a, b"` with child `".x"` gives `"a .x, b .x"` and with child `"&:hover"`
gives `"a:hover, b:hover"`. -/
theorem ghetto_inject_cartesian (delim pval : String) (nodes : List String)
    (h : pval ≠ "") :
    ghettoResolvedParentInject delim pval nodes =
      goJoin ((goSplit pval ", ").map (fun p => nodes.map fun n =>
        if goContains n amper then goReplaceAll n "&" p
        else p ++ delim ++ n)).flatten ", " ∧
    ghettoResolvedParentInject " " "a, b" [".x"] = "a .x, b .x" ∧
    ghettoResolvedParentInject " " "a, b" ["&:hover"] = "a:hover, b:hover" := by
  refine ⟨?_, by decide, by decide⟩
  have hlen : pval.length ≠ 0 := by
    intro h0
    exact h (by cases pval with
      | mk data => cases data with
        | nil => rfl
        | cons c cs => simp [String.length, List.length] at h0)
  simp only [ghettoResolvedParentInject, if_neg hlen]
  rw [foldl_nested_pairing]
  simp

/-- Witness for `ghetto_inject_cartesian` at parent `"a, b"`, child
`".x"`, delimiter `" "`. -/
theorem ghetto_inject_cartesian_witness :
    ghettoResolvedParentInject " " "a, b" [".x"] =
      goJoin ((goSplit "a, b" ", ").map (fun p => [".x"].map fun n =>
        if goContains n amper then goReplaceAll n "&" p
        else p ++ " " ++ n)).flatten ", " :=
  (ghetto_inject_cartesian " " "a, b" [".x"] (by decide)).1

/-- C1: `mergeLits(", ", "1, 3", "2")` returns `"1, 3, 2"`, not the
`"1, 2, 3"` promised by the claim and by the function's own comment
(`[1 3] [2] => [1 2 3]`): the right element is inserted only after every
`mod`-th left element, which for `mod = 2` places it after `3`. -/
theorem mergeLits_comma_uneven_order :
    mergeLits ", " "1, 3" "2" = Except.ok "1, 3, 2" ∧
    ("1, 3, 2" : String) ≠ "1, 2, 3" := by
  exact ⟨by decide, by decide⟩

/-- C3: for left alternatives `"1, 2, 3"` and right alternatives `"a, b"`
(lengths 3 and 2, not an integer ratio) `mergeLits` does not report the
incompatible-lengths error: `math.Remainder(3, 2) = -1` is not `> 0`, so
the guard is skipped and the loop instead panics accessing `rights[2]`
out of range. -/
theorem mergeLits_uneven_ratio_unreported :
    mergeLits ", " "1, 2, 3" "a, b" = Except.error MergeErr.indexOutOfRange ∧
    (3 : Nat) % 2 ≠ 0 ∧
    mergeLits ", " "1, 2, 3" "a, b" ≠ Except.error MergeErr.incompatibleLengths := by
  exact ⟨by decide, by decide, by decide⟩

/-- On a list of basic literals, the resolution loop of `simplifyExprs`
succeeds with the literals' resolved values. -/
theorem simplifyList_lits (colorOp : ColorOp) :
    ∀ l : List Expr, (∀ e ∈ l, ∃ k v, e = Expr.basicLit k v) →
      simplifyList colorOp l = Except.ok (l.map litResolve)
  | [], _ => rfl
  | e :: es, h => by
    obtain ⟨k, v, hkv⟩ := h e (by simp)
    have ih := simplifyList_lits colorOp es (fun x hx => h x (by simp [hx]))
    subst hkv
    simp [simplifyList, resolveExpr, ih, litResolve]
    rfl

/-- C6 (amended): for a value list of length at least 3 consisting of
basic literals whose first and last elements are quoted-string markers,
`simplifyExprs` drops the first element together with the *last two*
elements (the trailing marker and the value just before it, because the
slice upper bound is `len-2` rather than `len-1`), joins the remaining
resolved values with single spaces, and re-quotes the join in double
quotes. -/
theorem simplifyExprs_qstring_markers (colorOp : ColorOp) (l : List Expr)
    (hlen : 3 ≤ l.length)
    (hlits : ∀ e ∈ l, ∃ k v, e = Expr.basicLit k v)
    (hfirst : isQstringLit (l.headD .valueE))
    (hlast : isQstringLit (l.getLastD .valueE)) :
    simplifyExprs colorOp l =
      Except.ok ("\"" ++
        goJoin (((l.map litResolve).drop 1).take (l.length - 3)) " " ++ "\"") := by
  have hne : l ≠ [] := by
    intro h
    subst h
    simp at hlen
  have hh : l.head? = some (l.headD .valueE) := by
    cases l with
    | nil => exact absurd rfl hne
    | cons a as => simp [List.headD]
  have hgs : l.getLast?.isSome := by
    rw [List.getLast?_isSome]
    exact hne
  obtain ⟨g, hg⟩ := Option.isSome_iff_exists.mp hgs
  have hgd : l.getLastD .valueE = g := by
    rw [List.getLastD_eq_getLast?, hg]
    rfl
  have hsl := simplifyList_lits colorOp l hlits
  have hcore : simplifyExprs colorOp l = simplifyCore l (l.map litResolve) := by
    simp [simplifyExprs, hsl, Bind.bind, Except.bind]
  rw [hcore]
  rw [hgd] at hlast
  have hnotco : ¬(((l.length : Int) - 2) < 1 ∨ (l.length : Int) < (l.length : Int) - 2) := by
    omega
  have htn : (((l.length : Int) - 2)).toNat - 1 = l.length - 3 := by
    omega
  simp only [simplifyCore, hh, hg, hfirst, hlast, if_pos, if_true, List.length_map]
  rw [if_neg hnotco, htn]

/-- C6 counterexample: for the four-element value list
`[QSTRING marker, "a", "b", QSTRING marker]` the code returns `"a"`
re-quoted — it drops `"b"` in addition to the two markers — not the
`"a b"` the claim promises. -/
theorem simplifyExprs_qstring_counterexample :
    simplifyExprs noColorOp
      [Expr.basicLit .QSTRING "\"", Expr.basicLit .STRING "a",
       Expr.basicLit .STRING "b", Expr.basicLit .QSTRING "\""] =
      Except.ok "\"a\"" ∧
    (Except.ok ("\"a\"" : String) : Except EvalFail String) ≠ Except.ok "\"a b\"" := by
  exact ⟨by decide, by decide⟩

/-- Witness for `simplifyExprs_qstring_markers` on
`[QSTRING marker, "x", "y", QSTRING marker]`. -/
theorem simplifyExprs_qstring_markers_witness :
    simplifyExprs noColorOp
      [Expr.basicLit .QSTRING "\"", Expr.basicLit .STRING "x",
       Expr.basicLit .STRING "y", Expr.basicLit .QSTRING "\""] =
      Except.ok "\"x\"" := by
  have h := simplifyExprs_qstring_markers noColorOp
    [Expr.basicLit .QSTRING "\"", Expr.basicLit .STRING "x",
     Expr.basicLit .STRING "y", Expr.basicLit .QSTRING "\""]
    (by decide)
    (by intro e he; fin_cases he <;> exact ⟨_, _, rfl⟩)
    (by decide) (by decide)
  rw [h]
  decide

/-- C9: a binary expression whose operands convert (after call-expression
substitution) to basic literals that are both of `INT` kind evaluates to
the empty string with a nil error — the color branch is skipped (`INT` is
not `COLOR`), the `INT`-with-non-`INT` string rendering is skipped, and
the final `return "", nil` fires; the emitted property value is empty. -/
theorem calculateExprs_int_int (colorOp : ColorOp) (op : GoOp) (x y : Expr)
    (vx vy : String)
    (hx : convOperand x = Except.ok (Expr.basicLit .INT vx))
    (hy : convOperand y = Except.ok (Expr.basicLit .INT vy)) :
    calculateExprs colorOp op x y = Except.ok "" ∧
    resolveExpr colorOp (Expr.binary op x y) = Except.ok "" := by
  have h1 : calculateExprs colorOp op x y = Except.ok "" := by
    simp [calculateExprs, hx, hy, Bind.bind, Except.bind]
  exact ⟨h1, by simpa [resolveExpr] using h1⟩

/-- Witness for `calculateExprs_int_int` on `1 + 2`. -/
theorem calculateExprs_int_int_witness :
    calculateExprs noColorOp .ADD (Expr.basicLit .INT "1")
      (Expr.basicLit .INT "2") = Except.ok "" ∧
    resolveExpr noColorOp
      (Expr.binary .ADD (Expr.basicLit .INT "1") (Expr.basicLit .INT "2")) =
      Except.ok "" :=
  calculateExprs_int_int noColorOp .ADD _ _ "1" "2" rfl rfl

/-- C5 counterexample: the compiled output for `.a { color: red; }` is not
the claimed `".a {\n  color: red;\n}\n"` — `blockOutro` writes `" }\n"`,
putting the closing brace on the rule's line behind a space. -/
theorem compile_simple_css_counterexample :
    runDoc noColorOp 2
      [Stmt.selStmt ".a" [Stmt.ruleSpec "color" [Expr.basicLit .STRING "red"]]] ≠
      ".a \x7b\n  color: red;\n\x7d\n" := by
  decide

/-- C5 (amended): compiling `.a { color: red; }` (its parsed tree with the
top-level selector resolved to `.a`) produces exactly
`".a {\n  color: red; }\n"`: opening brace on the selector line, the rule
indented by two spaces, the closing brace on the same line as the rule
preceded by one space, and a terminating newline. -/
theorem compile_simple_css :
    runDoc noColorOp 2
      [Stmt.selStmt ".a" [Stmt.ruleSpec "color" [Expr.basicLit .STRING "red"]]] =
      ".a \x7b\n  color: red; \x7d\n" := by
  decide

/-- C4 counterexample: on a failed parse the package-level `Run` does not
return the error value to its caller — `log.Fatal` ends the process. -/
theorem run_fatal_counterexample :
    RunGo (ParseResult.failed ⟨"selector", 3⟩) =
      RunOutcome.fatalExit ⟨"selector", 3⟩ ∧
    RunGo (ParseResult.failed ⟨"selector", 3⟩) ≠
      RunOutcome.returned "" (some ⟨"selector", 3⟩) := by
  exact ⟨rfl, by decide⟩

/-- C4 (amended): `Context.run` surfaces a compilation failure as an error
value identifying the offending construct and its source position, but the
package-level `Run` then calls `log.Fatal` on that error and terminates
the process instead of returning it; on success `Run` returns the complete
CSS text (the walked buffer with the trailing-newline fix) with a nil
error. -/
theorem run_error_paths (c : String) (p : Nat) (w : String) :
    contextRun (ParseResult.failed ⟨c, p⟩) = ("", some ⟨c, p⟩) ∧
    RunGo (ParseResult.failed ⟨c, p⟩) = RunOutcome.fatalExit ⟨c, p⟩ ∧
    RunGo (ParseResult.parsed w) =
      RunOutcome.returned (finalizeNewline w) none := by
  exact ⟨rfl, rfl, rfl⟩

/-- C7: `Advance` with the cursor at or past the end of the input returns
the end-of-input sentinel with width 0; on an invalid UTF-8 encoding at
the cursor every call — the first and all subsequent ones — returns the
decode-error sentinel `(RuneError, 1)` without moving the cursor, so the
error is sticky until the cursor is moved by other means. -/
theorem advance_sentinels (l : GoLexer) (hneg : l.neg = false) :
    (l.input.length ≤ l.pos →
      advance l = .ok ({ l with width := 0 }, eofRune, 0)) ∧
    (l.pos < l.input.length →
      utf8DecodeRune (l.input.drop l.pos) = (RuneErrorVal, 1) →
      ∀ n : Nat,
        (advanceIter l n).pos = l.pos ∧
        advance (advanceIter l n) =
          .ok ({ advanceIter l n with last := RuneErrorVal, width := 1 },
            RuneErrorVal, 1)) := by
  constructor
  · intro hle
    simp [advance, hneg, hle]
  · intro hlt hdec
    have key : ∀ n : Nat, (advanceIter l n).pos = l.pos ∧
        (advanceIter l n).input = l.input ∧ (advanceIter l n).neg = false := by
      intro n
      induction n with
      | zero => exact ⟨rfl, rfl, hneg⟩
      | succ m ih =>
        obtain ⟨hp, hi, hn⟩ := ih
        have hstep : advance (advanceIter l m) =
            .ok ({ advanceIter l m with last := RuneErrorVal, width := 1 },
              RuneErrorVal, 1) := by
          simp [advance, hn, hi, hp, Nat.not_le.mpr hlt, hdec]
        simp [advanceIter, hstep, hp, hi, hn]
    intro n
    obtain ⟨hp, hi, hn⟩ := key n
    refine ⟨hp, ?_⟩
    simp [advance, hn, hi, hp, Nat.not_le.mpr hlt, hdec]

/-- Witness for `advance_sentinels`: the empty input is at end (sentinel
`(0x04, 0)`), and on the invalid byte `0xFF` the second and third calls
still report `(RuneError, 1)` with the cursor still at 0. -/
theorem advance_sentinels_witness :
    advance (newLexer []) = .ok ({ newLexer [] with width := 0 }, eofRune, 0) ∧
    (advanceIter (newLexer [0xFF]) 2).pos = (newLexer [0xFF]).pos ∧
    advance (advanceIter (newLexer [0xFF]) 2) =
      .ok ({ advanceIter (newLexer [0xFF]) 2 with
              last := RuneErrorVal, width := 1 }, RuneErrorVal, 1) :=
  ⟨(advance_sentinels (newLexer []) rfl).1 (by decide),
   ((advance_sentinels (newLexer [0xFF]) rfl).2 (by decide) (by decide) 2).1,
   ((advance_sentinels (newLexer [0xFF]) rfl).2 (by decide) (by decide) 2).2⟩

/-- C8: with a terminal (`nil`) state function and an empty pending-output
queue, every call to `Next` returns the synthetic end-of-stream item and
returns the lexer itself unchanged — in particular start, cursor, input
and queue are untouched — for arbitrarily many repeated calls. -/
theorem next_terminal_frame (rc : RuneClass) (fuel : Nat) (l : GoLexer)
    (hstate : l.state = none) (hitems : l.items = []) :
    next rc fuel l = .ok (⟨ItemTy.eofItem, l.start, []⟩, l) ∧
    ∀ n : Nat, pulls rc fuel n l =
      .ok (List.replicate n ⟨ItemTy.eofItem, l.start, []⟩, l) := by
  have h1 : next rc fuel l = .ok (⟨ItemTy.eofItem, l.start, []⟩, l) := by
    simp [next, hitems, hstate]
  refine ⟨h1, ?_⟩
  intro n
  induction n with
  | zero => rfl
  | succ m ih =>
    simp [pulls, h1, ih, List.replicate_succ, Bind.bind, Except.bind]
    rfl

/-- Witness for `next_terminal_frame`: a concrete terminal lexer over
`"ab"` yields the end-of-stream item three times without change. -/
theorem next_terminal_frame_witness :
    pulls ⟨fun _ => false, fun _ => false, fun _ => false, fun _ => false,
        fun _ => 0⟩ 5 3
      { newLexer (strBytes "ab") with state := none } =
      .ok (List.replicate 3
        ⟨ItemTy.eofItem, (newLexer (strBytes "ab")).start, []⟩,
        { newLexer (strBytes "ab") with state := none }) :=
  (next_terminal_frame _ 5 _ rfl rfl).2 3

/-- Base case of the state chain: zero fuel exhausts. -/
theorem stepMachine_zero (rc : RuneClass) (l : GoLexer) (s : StateName) :
    stepMachine rc 0 l s = .error .fuelOut := rfl

/-- Unfolding the state chain across one successful transfer. -/
theorem stepMachine_step (rc : RuneClass) {l l1 : GoLexer} {s s2 : StateName}
    (f : Nat) (h : runState rc s l = .ok (l1, some s2)) :
    stepMachine rc (f + 1) l s =
      stepMachine rc f { l1 with state := some s2 } s2 := by
  simp [stepMachine, h, Bind.bind, Except.bind]

/-- Unfolding the state chain at a terminal transfer. -/
theorem stepMachine_done (rc : RuneClass) {l l1 : GoLexer} {s : StateName}
    (f : Nat) (h : runState rc s l = .ok (l1, none)) :
    stepMachine rc (f + 1) l s = .ok { l1 with state := none } := by
  simp [stepMachine, h, Bind.bind, Except.bind]
  rfl

/-- Unfolding the state chain at a failing state function. -/
theorem stepMachine_err (rc : RuneClass) {l : GoLexer} {s : StateName}
    {e : LexFail} (f : Nat) (h : runState rc s l = .error e) :
    stepMachine rc (f + 1) l s = .error e := by
  simp [stepMachine, h, Bind.bind, Except.bind]

/-- C10 counterexample: two valid UTF-8 inputs on which scanning never
returns an end-of-stream item.  On `"/é"` (`2F C3 A9`) the dispatcher's
`/` fallthrough backs up by the two-byte width of `é`, driving the cursor
below zero, and the next decode is Go's slice-bounds panic.  On `"(x"`
the `(` reaches `Paren` with an empty output queue and no following `$`,
and `l.items.Back().Value` is a nil-pointer dereference. -/
theorem action_termination_counterexample :
    validUTF8 [0x2F, 0xC3, 0xA9] = true ∧
    ¬ ScanReturnsEOF rcGo [0x2F, 0xC3, 0xA9] ∧
    validUTF8 (strBytes "(x") = true ∧
    ¬ ScanReturnsEOF rcGo (strBytes "(x") := by
  have hA : runState rcGo .action (newLexer [0x2F, 0xC3, 0xA9]) =
      .ok (⟨[0x2F, 0xC3, 0xA9], 0, 0, 2, 0xE9, true, [], some .action⟩,
        some .math) := by decide
  have hB : runState rcGo .math
      (⟨[0x2F, 0xC3, 0xA9], 0, 0, 2, 0xE9, true, [], some .math⟩ : GoLexer) =
      .error .slicePanic := by decide
  have hC : runState rcGo .action (newLexer (strBytes "(x")) =
      .ok (⟨[40, 120], 0, 0, 1, 40, false, [], some .action⟩, some .paren) := by
    decide
  have hD : runState rcGo .paren
      (⟨[40, 120], 0, 0, 1, 40, false, [], some .paren⟩ : GoLexer) =
      .error .nilDeref := by decide
  refine ⟨by decide, ?_, by decide, ?_⟩
  · rintro ⟨f, l1, h⟩
    match f, h with
    | 0, h => exact absurd h (by simp [stepMachine_zero])
    | 1, h =>
      rw [stepMachine_step rcGo 0 hA, stepMachine_zero] at h
      exact absurd h (by simp)
    | (g + 2), h =>
      rw [stepMachine_step rcGo (g + 1) hA, stepMachine_err rcGo g hB] at h
      exact absurd h (by simp)
  · rintro ⟨f, l1, h⟩
    match f, h with
    | 0, h => exact absurd h (by simp [stepMachine_zero])
    | 1, h =>
      rw [stepMachine_step rcGo 0 hC, stepMachine_zero] at h
      exact absurd h (by simp)
    | (g + 2), h =>
      rw [stepMachine_step rcGo (g + 1) hC, stepMachine_err rcGo g hD] at h
      exact absurd h (by simp)

/-- A decode step on non-empty input has positive width. -/
theorem utf8DecodeRune_width_pos (b : Nat) (rest : List Nat) :
    1 ≤ (utf8DecodeRune (b :: rest)).2 := by
  match rest with
  | [] => simp only [utf8DecodeRune]; split_ifs <;> simp
  | [b1] => simp only [utf8DecodeRune]; split_ifs <;> simp
  | [b1, b2] => simp only [utf8DecodeRune]; split_ifs <;> simp
  | b1 :: b2 :: b3 :: r2 => simp only [utf8DecodeRune]; split_ifs <;> simp

/-- A decode step never reports more bytes than are present. -/
theorem utf8DecodeRune_width_le (bs : List Nat) :
    (utf8DecodeRune bs).2 ≤ bs.length := by
  match bs with
  | [] => simp [utf8DecodeRune]
  | [b] => simp only [utf8DecodeRune]; split_ifs <;> simp
  | [b, b1] => simp only [utf8DecodeRune]; split_ifs <;> simp
  | [b, b1, b2] => simp only [utf8DecodeRune]; split_ifs <;> simp
  | b :: b1 :: b2 :: b3 :: r2 => simp only [utf8DecodeRune]; split_ifs <;> simp

/-- An ASCII byte decodes to itself with width 1. -/
theorem utf8DecodeRune_ascii (b : Nat) (rest : List Nat) (hb : b < 0x80) :
    utf8DecodeRune (b :: rest) = (b, 1) := by
  simp only [utf8DecodeRune, if_pos hb]

/-- A multi-byte decode yields a rune of at least `0x80`. -/
theorem utf8DecodeRune_ge (b : Nat) (rest : List Nat) (r w : Nat)
    (hdec : utf8DecodeRune (b :: rest) = (r, w)) (hw : 2 ≤ w) : 0x80 ≤ r := by
  rcases rest with _ | ⟨b1, _ | ⟨b2, _ | ⟨b3, r3⟩⟩⟩ <;>
    (simp only [utf8DecodeRune] at hdec; split_ifs at hdec <;>
      simp only [Prod.mk.injEq] at hdec <;>
      omega)

/-- A width-1 decode is either the ASCII head byte itself or the invalid
sentinel. -/
theorem utf8DecodeRune_one (b : Nat) (rest : List Nat) (r : Nat)
    (hdec : utf8DecodeRune (b :: rest) = (r, 1)) :
    r = b ∨ r = RuneErrorVal := by
  rcases rest with _ | ⟨b1, _ | ⟨b2, _ | ⟨b3, r3⟩⟩⟩ <;>
    (simp only [utf8DecodeRune] at hdec; split_ifs at hdec <;>
      simp only [Prod.mk.injEq] at hdec <;>
      first
        | (exact Or.inl hdec.1.symm)
        | (exact Or.inr hdec.1.symm)
        | omega)

/-- A decoded rune below `0x80` can only come from the single ASCII byte
at the head: multi-byte sequences decode to at least `0x80` and the
invalid sentinel is `0xFFFD`. -/
theorem utf8DecodeRune_ascii_inv (b : Nat) (rest : List Nat) (r w : Nat)
    (hdec : utf8DecodeRune (b :: rest) = (r, w)) (hr : r < 0x80) :
    w = 1 ∧ b = r := by
  have hpos := utf8DecodeRune_width_pos b rest
  rw [hdec] at hpos
  by_cases hw : 2 ≤ w
  · exact absurd (utf8DecodeRune_ge b rest r w hdec hw) (by omega)
  · have hw1 : w = 1 := by omega
    subst hw1
    rcases utf8DecodeRune_one b rest r hdec with h | h
    · exact ⟨rfl, h.symm⟩
    · exact absurd hr (by simp [h, RuneErrorVal])

/-- The validity scan is fuel-indifferent once the fuel covers the
length. -/
theorem validUTF8Aux_congr (bs : List Nat) (f g : Nat)
    (hf : bs.length ≤ f) (hg : bs.length ≤ g) :
    validUTF8Aux f bs = validUTF8Aux g bs := by
  match bs, f, g with
  | [], 0, 0 => rfl
  | [], 0, g + 1 => simp [validUTF8Aux]
  | [], f + 1, 0 => simp [validUTF8Aux]
  | [], f + 1, g + 1 => rfl
  | b :: rest, f, g =>
    match f, g, hf, hg with
    | f1 + 1, g1 + 1, hf, hg =>
      simp only [validUTF8Aux]
      rcases hdec : utf8DecodeRune (b :: rest) with ⟨r, w⟩
      have hwpos := utf8DecodeRune_width_pos b rest
      have hwle := utf8DecodeRune_width_le (b :: rest)
      rw [hdec] at hwpos hwle
      simp only [List.length_cons] at hwle hf hg
      have hlen : ((b :: rest).drop w).length = rest.length + 1 - w := by
        simp
      by_cases hinv : r = RuneErrorVal ∧ w = 1
      · simp [hinv]
      · simp only [hinv, if_false]
        exact validUTF8Aux_congr ((b :: rest).drop w) f1 g1
          (by rw [hlen]; omega) (by rw [hlen]; omega)
termination_by bs.length
decreasing_by
  have hw : 1 ≤ w := by
    have hp := utf8DecodeRune_width_pos b rest
    rw [hdec] at hp
    exact hp
  have hc : (b :: rest).length = rest.length + 1 := by simp
  simp only [List.length_drop]
  omega

/-- One valid decode step: not the invalid sentinel, and the remainder
past the decoded width is itself valid. -/
theorem validUTF8_decode (b : Nat) (rest : List Nat)
    (h : validUTF8 (b :: rest) = true) :
    ¬((utf8DecodeRune (b :: rest)).1 = RuneErrorVal ∧
        (utf8DecodeRune (b :: rest)).2 = 1) ∧
    validUTF8 ((b :: rest).drop (utf8DecodeRune (b :: rest)).2) = true := by
  rw [validUTF8] at h
  simp only [List.length_cons, validUTF8Aux] at h
  rcases hdec : utf8DecodeRune (b :: rest) with ⟨r, w⟩
  rw [hdec] at h
  simp only at h ⊢
  have hwpos := utf8DecodeRune_width_pos b rest
  have hwle := utf8DecodeRune_width_le (b :: rest)
  rw [hdec] at hwpos hwle
  simp only at hwpos hwle
  simp only [List.length_cons] at hwle
  by_cases hinv : r = RuneErrorVal ∧ w = 1
  · simp [hinv] at h
  · refine ⟨hinv, ?_⟩
    simp only [hinv, if_false] at h
    rw [validUTF8]
    have hlen : ((b :: rest).drop w).length = rest.length + 1 - w := by
      simp
    have hcongr := validUTF8Aux_congr ((b :: rest).drop w)
      ((b :: rest).drop w).length rest.length (le_refl _) (by rw [hlen]; omega)
    rw [hcongr]
    exact h

/-- Stripping a leading ASCII byte preserves validity. -/
theorem validUTF8_cons_ascii (b : Nat) (rest : List Nat) (hb : b < 0x80)
    (h : validUTF8 (b :: rest) = true) : validUTF8 rest = true := by
  have h2 := (validUTF8_decode b rest h).2
  rw [utf8DecodeRune_ascii b rest hb] at h2
  simpa using h2

/-- Stripping a whole ASCII prefix preserves validity. -/
theorem validUTF8_append_ascii (s rest : List Nat)
    (hs : ∀ b ∈ s, b < 0x80) (h : validUTF8 (s ++ rest) = true) :
    validUTF8 rest = true := by
  induction s with
  | nil => simpa using h
  | cons b s2 ih =>
    exact ih (fun x hx => hs x (by simp [hx]))
      (validUTF8_cons_ascii b (s2 ++ rest) (hs b (by simp)) (by simpa using h))

/-- The slash condition passes to the tail. -/
theorem slashOk_cons (b : Nat) (rest : List Nat)
    (h : slashOk (b :: rest) = true) : slashOk rest = true := by
  simp only [slashOk, Bool.and_eq_true] at h
  exact h.2

/-- The slash condition passes to every suffix. -/
theorem slashOk_drop (bs : List Nat) (k : Nat)
    (h : slashOk bs = true) : slashOk (bs.drop k) = true := by
  induction k generalizing bs with
  | zero => simpa using h
  | succ n ih =>
    match bs with
    | [] => simpa using h
    | b :: rest => exact ih rest (slashOk_cons b rest h)

/-- What the slash condition says at a `/`: nothing follows, or an ASCII
byte does. -/
theorem slashOk_head (rest : List Nat)
    (h : slashOk (0x2F :: rest) = true) :
    rest = [] ∨ ∃ c cs, rest = c :: cs ∧ c < 0x80 := by
  match rest with
  | [] => exact Or.inl rfl
  | c :: cs =>
    refine Or.inr ⟨c, cs, rfl, ?_⟩
    simp only [slashOk, Bool.and_eq_true] at h
    have := h.1
    simpa using this

/-- The invariant only reads `neg`, `pos` and `input`. -/
theorem LexInv_of_fields (l l' : GoLexer) (hn : l'.neg = l.neg)
    (hp : l'.pos = l.pos) (hi : l'.input = l.input) (h : LexInv l) :
    LexInv l' := by
  rcases h with ⟨h1, h2, h3, h4⟩
  exact ⟨hn.trans h1, by rw [hp, hi]; exact h2, by rw [hp, hi]; exact h3,
    by rw [hp, hi]; exact h4⟩

/-- `Advance` at or past the end of input under the invariant. -/
theorem advance_at_end (l : GoLexer) (hInv : LexInv l)
    (hle : l.input.length ≤ l.pos) :
    advance l = .ok ({ l with width := 0 }, eofRune, 0) := by
  simp [advance, hInv.1, hle]

/-- `Advance` strictly inside the input under the invariant: a valid
decode that moves the cursor by its width and preserves the invariant. -/
theorem advance_mid (l : GoLexer) (hInv : LexInv l)
    (hlt : l.pos < l.input.length) :
    ∃ r w, utf8DecodeRune (l.input.drop l.pos) = (r, w) ∧
      advance l = .ok ({ l with last := r, width := w, pos := l.pos + w }, r, w) ∧
      1 ≤ w ∧ l.pos + w ≤ l.input.length ∧
      LexInv { l with last := r, width := w, pos := l.pos + w } := by
  obtain ⟨hneg, hpos, hval, hslash⟩ := hInv
  have hne : l.input.drop l.pos ≠ [] := by
    intro h
    have := congrArg List.length h
    simp at this
    omega
  obtain ⟨b, rest, hbr⟩ := List.exists_cons_of_ne_nil hne
  obtain ⟨r, w, hdec⟩ : ∃ r w, utf8DecodeRune (l.input.drop l.pos) = (r, w) :=
    ⟨_, _, Prod.mk.eta.symm⟩
  have hdec2 : utf8DecodeRune (b :: rest) = (r, w) := by rw [← hbr]; exact hdec
  have hvd := validUTF8_decode b rest (by rw [← hbr]; exact hval)
  rw [hdec2] at hvd
  simp only at hvd
  have hwpos := utf8DecodeRune_width_pos b rest
  have hwle := utf8DecodeRune_width_le (b :: rest)
  rw [hdec2] at hwpos hwle
  simp only at hwpos hwle
  have hlenbr : (b :: rest).length = (l.input.drop l.pos).length := by
    rw [hbr]
  have hlendrop : (l.input.drop l.pos).length = l.input.length - l.pos := by
    simp
  refine ⟨r, w, hdec, ?_, hwpos, by omega, ?_⟩
  · simp [advance, hneg, Nat.not_le.mpr hlt, hdec, hvd.1]
  · have hdd : l.input.drop (l.pos + w) = (l.input.drop l.pos).drop w := by
      rw [List.drop_drop]
    refine ⟨hneg, by show l.pos + w ≤ l.input.length; omega, ?_, ?_⟩
    · show validUTF8 (l.input.drop (l.pos + w)) = true
      rw [hdd, hbr]
      exact hvd.2
    · show slashOk (l.input.drop (l.pos + w)) = true
      rw [hdd]
      exact slashOk_drop _ w hslash

/-- `Backup` right after a cursor-moving `Advance` restores the cursor
exactly. -/
theorem backup_advanced (l : GoLexer) (r w : Nat) :
    backup { l with last := r, width := w, pos := l.pos + w } =
      { l with last := r, width := w, pos := l.pos } := by
  cases l
  simp [backup]

/-- `Accept` at end of input refuses without moving (no valid set
contains the end sentinel). -/
theorem accept_at_end (v : List Nat) (l : GoLexer) (hInv : LexInv l)
    (hle : l.input.length ≤ l.pos) (hv : eofRune ∉ v) :
    accept v l = .ok ({ l with width := 0 }, false) := by
  have ha := advance_at_end l hInv hle
  have hb : backup { l with width := 0 } = { l with width := 0 } := by
    cases l
    simp [backup]
  simp [accept, ha, hv, hb, Bind.bind, Except.bind, Pure.pure, Except.pure]

/-- `Accept` on an ASCII head byte in the set consumes it. -/
theorem accept_hit (v : List Nat) (l : GoLexer) (b : Nat) (rest : List Nat)
    (hInv : LexInv l) (hsuf : l.input.drop l.pos = b :: rest) (hb : b < 0x80)
    (hv : b ∈ v) :
    accept v l = .ok ({ l with last := b, width := 1, pos := l.pos + 1 }, true) ∧
    LexInv { l with last := b, width := 1, pos := l.pos + 1 } := by
  have hlt : l.pos < l.input.length := by
    have := congrArg List.length hsuf
    simp at this
    omega
  obtain ⟨r, w, hdec, hadv, hw, hle, hInv2⟩ := advance_mid l hInv hlt
  rw [hsuf, utf8DecodeRune_ascii b rest hb] at hdec
  have hr : r = b := ((Prod.mk.injEq _ _ _ _).mp hdec.symm).1
  have hww : w = 1 := ((Prod.mk.injEq _ _ _ _).mp hdec.symm).2
  subst hr hww
  exact ⟨by simp [accept, hadv, hv, Bind.bind, Except.bind, Pure.pure, Except.pure], hInv2⟩

/-- `Accept` on an ASCII head byte outside the set backs up exactly. -/
theorem accept_miss (v : List Nat) (l : GoLexer) (b : Nat) (rest : List Nat)
    (hInv : LexInv l) (hsuf : l.input.drop l.pos = b :: rest) (hb : b < 0x80)
    (hv : b ∉ v) :
    accept v l = .ok ({ l with last := b, width := 1, pos := l.pos }, false) ∧
    LexInv { l with last := b, width := 1, pos := l.pos } := by
  have hlt : l.pos < l.input.length := by
    have := congrArg List.length hsuf
    simp at this
    omega
  obtain ⟨r, w, hdec, hadv, hw, hle, hInv2⟩ := advance_mid l hInv hlt
  rw [hsuf, utf8DecodeRune_ascii b rest hb] at hdec
  have hr : r = b := ((Prod.mk.injEq _ _ _ _).mp hdec.symm).1
  have hww : w = 1 := ((Prod.mk.injEq _ _ _ _).mp hdec.symm).2
  subst hr hww
  refine ⟨?_, LexInv_of_fields _ _ rfl rfl rfl hInv⟩
  simp [accept, hadv, hv, Bind.bind, Except.bind, Pure.pure, Except.pure, backup_advanced]

/-- `Accept` under the invariant always returns, preserves the invariant
and the input, never retreats, and stays put on refusal. -/
theorem accept_any (v : List Nat) (l : GoLexer) (hInv : LexInv l)
    (hv : eofRune ∉ v) :
    ∃ l' ok, accept v l = .ok (l', ok) ∧ LexInv l' ∧ l'.input = l.input ∧
      l.pos ≤ l'.pos ∧ (ok = false → l'.pos = l.pos) ∧
      (ok = true → l.pos + 1 ≤ l'.pos) := by
  by_cases hle : l.input.length ≤ l.pos
  · exact ⟨{ l with width := 0 }, false, accept_at_end v l hInv hle hv,
      LexInv_of_fields _ _ rfl rfl rfl hInv, rfl, le_refl _, fun _ => rfl,
      fun h => by cases h⟩
  · obtain ⟨r, w, hdec, hadv, hw, hle2, hInv2⟩ :=
      advance_mid l hInv (Nat.not_le.mp hle)
    by_cases hmem : r ∈ v
    · refine ⟨{ l with last := r, width := w, pos := l.pos + w }, true, ?_,
        hInv2, rfl, (by simp), (fun h => by cases h),
        (fun _ => by simp; omega)⟩
      simp [accept, hadv, hmem, Bind.bind, Except.bind, Pure.pure, Except.pure]
    · refine ⟨{ l with last := r, width := w, pos := l.pos }, false, ?_,
        LexInv_of_fields _ _ rfl rfl rfl hInv, rfl, le_refl _, fun _ => rfl,
        fun h => by cases h⟩
      simp [accept, hadv, hmem, Bind.bind, Except.bind, Pure.pure, Except.pure, backup_advanced]

/-- `AcceptFunc` under the invariant: always returns, preserves the
invariant and input, strictly advances on success, stays on refusal. -/
theorem acceptFunc_any (fn : Nat → Bool) (l : GoLexer) (hInv : LexInv l) :
    ∃ l' ok, acceptFunc fn l = .ok (l', ok) ∧ LexInv l' ∧ l'.input = l.input ∧
      l.pos ≤ l'.pos ∧ (ok = false → l'.pos = l.pos) ∧
      (ok = true → l.pos + 1 ≤ l'.pos) := by
  by_cases hle : l.input.length ≤ l.pos
  · have ha := advance_at_end l hInv hle
    refine ⟨{ l with width := 0 }, false,
      by simp [acceptFunc, ha, Bind.bind, Except.bind, Pure.pure, Except.pure],
      LexInv_of_fields _ _ rfl rfl rfl hInv, rfl, le_refl _, fun _ => rfl,
      fun h => by cases h⟩
  · obtain ⟨r, w, hdec, hadv, hw, hle2, hInv2⟩ :=
      advance_mid l hInv (Nat.not_le.mp hle)
    have hnz : ¬ w = 0 := by omega
    have hinv2 : ¬(r = RuneErrorVal ∧ w = 1) := by
      have hne : l.input.drop l.pos ≠ [] := by
        intro h
        have := congrArg List.length h
        simp at this
        omega
      obtain ⟨b, rest, hbr⟩ := List.exists_cons_of_ne_nil hne
      have := (validUTF8_decode b rest (by rw [← hbr]; exact hInv.2.2.1)).1
      rw [← hbr, hdec] at this
      simpa using this
    by_cases hfn : fn r
    · refine ⟨{ l with last := r, width := w, pos := l.pos + w }, true, ?_,
        hInv2, rfl, (by simp), (fun h => by cases h),
        (fun _ => by simp; omega)⟩
      simp [acceptFunc, hadv, hnz, hinv2, hfn, Bind.bind, Except.bind, Pure.pure, Except.pure]
    · refine ⟨{ l with last := r, width := w, pos := l.pos }, false, ?_,
        LexInv_of_fields _ _ rfl rfl rfl hInv, rfl, le_refl _, fun _ => rfl,
        fun h => by cases h⟩
      simp [acceptFunc, hadv, hnz, hinv2, hfn, Bind.bind, Except.bind, Pure.pure,
        Except.pure, backup_advanced]

/-- The fuelled `AcceptRunFunc` worker returns whenever the fuel exceeds
the remaining byte count, preserving the invariant and the input and
never retreating. -/
theorem acceptRunFuncAux_ok (fn : Nat → Bool) :
    ∀ f l, LexInv l → l.input.length - l.pos < f →
      ∃ l', acceptRunFuncAux fn f l = .ok l' ∧ LexInv l' ∧
        l'.input = l.input ∧ l.pos ≤ l'.pos := by
  intro f
  induction f with
  | zero => intro l _ h; omega
  | succ g ih =>
    intro l hInv hf
    obtain ⟨l1, ok, hacc, hInv1, hin1, hle1, hstay, hadv⟩ :=
      acceptFunc_any fn l hInv
    cases ok with
    | false =>
      refine ⟨l1, ?_, hInv1, hin1, hle1⟩
      simp [acceptRunFuncAux, hacc, Bind.bind, Except.bind, Pure.pure,
        Except.pure]
    | true =>
      have hp1 := hadv rfl
      obtain ⟨l2, hrec, hInv2, hin2, hle2⟩ := ih l1 hInv1
        (by have hb := hInv1.2.1; rw [hin1] at hb ⊢; omega)
      refine ⟨l2, ?_, hInv2, by rw [hin2, hin1], by omega⟩
      simp [acceptRunFuncAux, hacc, hrec, Bind.bind, Except.bind]

/-- `AcceptRunFunc` under the invariant. -/
theorem acceptRunFunc_ok (fn : Nat → Bool) (l : GoLexer) (hInv : LexInv l) :
    ∃ l', acceptRunFunc fn l = .ok l' ∧ LexInv l' ∧
      l'.input = l.input ∧ l.pos ≤ l'.pos := by
  exact acceptRunFuncAux_ok fn (l.input.length - l.pos + 1) l hInv (by omega)

/-- `AcceptRunFunc` advances strictly when the head rune satisfies the
predicate. -/
theorem acceptRunFunc_head (fn : Nat → Bool) (l : GoLexer) (hInv : LexInv l)
    (hlt : l.pos < l.input.length)
    (hfn : fn (utf8DecodeRune (l.input.drop l.pos)).1 = true) :
    ∃ l', acceptRunFunc fn l = .ok l' ∧ LexInv l' ∧
      l'.input = l.input ∧ l.pos + 1 ≤ l'.pos := by
  obtain ⟨r, w, hdec, hadv, hw, hle2, hInv2⟩ := advance_mid l hInv hlt
  have hfnr : fn r = true := by rw [hdec] at hfn; exact hfn
  have hnz : ¬ w = 0 := by omega
  have hinv2 : ¬(r = RuneErrorVal ∧ w = 1) := by
    have hne : l.input.drop l.pos ≠ [] := by
      intro h
      have := congrArg List.length h
      simp at this
      omega
    obtain ⟨b, rest, hbr⟩ := List.exists_cons_of_ne_nil hne
    have := (validUTF8_decode b rest (by rw [← hbr]; exact hInv.2.2.1)).1
    rw [← hbr, hdec] at this
    simpa using this
  have hfuel : l.input.length - l.pos + 1 = (l.input.length - l.pos) + 1 := rfl
  obtain ⟨l2, hrec, hInv2b, hin2, hle2b⟩ :=
    acceptRunFuncAux_ok fn (l.input.length - l.pos)
      { l with last := r, width := w, pos := l.pos + w } hInv2 (by simp; omega)
  refine ⟨l2, ?_, hInv2b, by rw [hin2], by simp at hle2b; omega⟩
  rw [acceptRunFunc, hfuel]
  simp [acceptRunFuncAux, acceptFunc, hadv, hnz, hinv2, hfnr, hrec,
    Bind.bind, Except.bind, Pure.pure, Except.pure]

/-- `AcceptString` under the invariant, for an ASCII literal: either it
consumes exactly the literal or it leaves the lexer untouched. -/
theorem acceptString_ok (s : List Nat) (l : GoLexer) (hInv : LexInv l)
    (hs : ∀ b ∈ s, b < 0x80) :
    (acceptString s l = .ok ({ l with pos := l.pos + s.length }, true) ∧
      LexInv { l with pos := l.pos + s.length }) ∨
    acceptString s l = .ok (l, false) := by
  obtain ⟨hneg, hpos, hval, hslash⟩ := hInv
  by_cases hlen : l.input.length - l.pos < s.length
  · right
    simp [acceptString, hneg, hlen]
  · by_cases hpre : (l.input.drop l.pos).take s.length = s
    · left
      constructor
      · simp [acceptString, hneg, hlen, hpre]
      · have hsplit : l.input.drop l.pos = s ++ (l.input.drop l.pos).drop s.length := by
          have h0 := List.take_append_drop s.length (l.input.drop l.pos)
          rw [hpre] at h0
          exact h0.symm
        have hdd : l.input.drop (l.pos + s.length) =
            (l.input.drop l.pos).drop s.length := by
          rw [List.drop_drop]
        refine ⟨hneg, by simp; omega, ?_, ?_⟩
        · show validUTF8 (l.input.drop (l.pos + s.length)) = true
          rw [hdd]
          exact validUTF8_append_ascii s _ hs (by rw [← hsplit]; exact hval)
        · show slashOk (l.input.drop (l.pos + s.length)) = true
          rw [hdd]
          exact slashOk_drop _ _ hslash
    · right
      simp [acceptString, hneg, hlen, hpre]

/-- `Peek` under the invariant: no cursor movement. -/
theorem peek_ok (l : GoLexer) (hInv : LexInv l) :
    ∃ l' r n, peek l = .ok (l', r, n) ∧ LexInv l' ∧ l'.input = l.input ∧
      l'.pos = l.pos := by
  by_cases hle : l.input.length ≤ l.pos
  · have ha := advance_at_end l hInv hle
    have hb : backup { l with width := 0 } = { l with width := 0 } := by
      cases l
      simp [backup]
    refine ⟨{ l with width := 0 }, eofRune, 0, ?_,
      LexInv_of_fields _ _ rfl rfl rfl hInv, rfl, rfl⟩
    simp [peek, ha, hb, Bind.bind, Except.bind, Pure.pure, Except.pure]
  · obtain ⟨r, w, hdec, hadv, hw, hle2, hInv2⟩ :=
      advance_mid l hInv (Nat.not_le.mp hle)
    refine ⟨{ l with last := r, width := w, pos := l.pos }, r, w, ?_,
      LexInv_of_fields _ _ rfl rfl rfl hInv, rfl, rfl⟩
    simp [peek, hadv, Bind.bind, Except.bind, Pure.pure, Except.pure,
      backup_advanced]

/-- A successful transfer prepends to a halting chain. -/
theorem scanHalts_step (rc : RuneClass) {l l1 : GoLexer} {s s2 : StateName}
    (h : runState rc s l = .ok (l1, some s2))
    (h2 : ScanHalts rc { l1 with state := some s2 } s2) : ScanHalts rc l s := by
  obtain ⟨f, hf⟩ := h2
  exact ⟨f + 1, by rw [stepMachine_step rc f h]; exact hf⟩

/-- A terminal transfer whose queue ends with the end-of-stream item
halts the chain. -/
theorem scanHalts_done (rc : RuneClass) {l l1 : GoLexer} {s : StateName}
    (h : runState rc s l = .ok (l1, none))
    (hq : l1.items.getLast? = some ⟨ItemTy.eofItem, l1.start, []⟩) :
    ScanHalts rc l s :=
  ⟨1, Or.inl ⟨{ l1 with state := none }, stepMachine_done rc 0 h, rfl, by
    simpa using hq⟩⟩

/-- The nil-dereference panic halts the chain. -/
theorem scanHalts_nil (rc : RuneClass) {l : GoLexer} {s : StateName}
    (h : runState rc s l = .error .nilDeref) : ScanHalts rc l s :=
  ⟨1, Or.inr (stepMachine_err rc 0 h)⟩

/-- Chasing a reachability chain into a halting configuration. -/
theorem reaches_halts (rc : RuneClass) {l l' : GoLexer} {s s' : StateName}
    (hr : Reaches rc l s l' s') (hh : ScanHalts rc l' s') : ScanHalts rc l s := by
  induction hr with
  | refl => exact hh
  | step h _ ih => exact scanHalts_step rc h (ih hh)

/-- `Math` with an arithmetic symbol at the cursor consumes exactly that
symbol (emitting its token) and returns to dispatch. -/
theorem runMath_progress (l : GoLexer) (b : Nat) (rest : List Nat)
    (hInv : LexInv l) (hsuf : l.input.drop l.pos = b :: rest)
    (hmem : b ∈ strBytes "*-+/") :
    ∃ l', runMath l = .ok (l', some .action) ∧ LexInv l' ∧
      l'.input = l.input ∧ l'.pos = l.pos + 1 := by
  have hcases : b = 42 ∨ b = 45 ∨ b = 43 ∨ b = 47 := by
    have : strBytes "*-+/" = [42, 45, 43, 47] := by decide
    rw [this] at hmem
    simpa using hmem
  rcases hcases with hb | hb | hb | hb <;> subst hb
  · obtain ⟨h1, hI1⟩ := accept_hit (strBytes "*") l 42 rest hInv hsuf
      (by norm_num) (by decide)
    refine ⟨emit ItemTy.mult { l with last := 42, width := 1, pos := l.pos + 1 },
      ?_, LexInv_of_fields _ _ rfl rfl rfl hI1, rfl, rfl⟩
    simp [runMath, h1, Bind.bind, Except.bind, Pure.pure, Except.pure]
  · obtain ⟨h1, hI1⟩ := accept_miss (strBytes "*") l 45 rest hInv hsuf
      (by norm_num) (by decide)
    obtain ⟨h2, hI2⟩ := accept_miss (strBytes "+") _ 45 rest hI1 hsuf
      (by norm_num) (by decide)
    obtain ⟨h3, hI3⟩ := accept_hit (strBytes "-") _ 45 rest hI2 hsuf
      (by norm_num) (by decide)
    refine ⟨emit ItemTy.minus { l with last := 45, width := 1, pos := l.pos + 1 },
      ?_, LexInv_of_fields _ _ rfl rfl rfl hI3, rfl, rfl⟩
    simp [runMath, h1, h2, h3, Bind.bind, Except.bind, Pure.pure, Except.pure]
  · obtain ⟨h1, hI1⟩ := accept_miss (strBytes "*") l 43 rest hInv hsuf
      (by norm_num) (by decide)
    obtain ⟨h2, hI2⟩ := accept_hit (strBytes "+") _ 43 rest hI1 hsuf
      (by norm_num) (by decide)
    refine ⟨emit ItemTy.plus { l with last := 43, width := 1, pos := l.pos + 1 },
      ?_, LexInv_of_fields _ _ rfl rfl rfl hI2, rfl, rfl⟩
    simp [runMath, h1, h2, Bind.bind, Except.bind, Pure.pure, Except.pure]
  · obtain ⟨h1, hI1⟩ := accept_miss (strBytes "*") l 47 rest hInv hsuf
      (by norm_num) (by decide)
    obtain ⟨h2, hI2⟩ := accept_miss (strBytes "+") _ 47 rest hI1 hsuf
      (by norm_num) (by decide)
    obtain ⟨h3, hI3⟩ := accept_miss (strBytes "-") _ 47 rest hI2 hsuf
      (by norm_num) (by decide)
    obtain ⟨h4, hI4⟩ := accept_hit (strBytes "/") _ 47 rest hI3 hsuf
      (by norm_num) (by decide)
    refine ⟨emit ItemTy.mult { l with last := 47, width := 1, pos := l.pos + 1 },
      ?_, LexInv_of_fields _ _ rfl rfl rfl hI4, rfl, rfl⟩
    simp [runMath, h1, h2, h3, h4, Bind.bind, Except.bind, Pure.pure,
      Except.pure]

/-- `Math` at end of input matches nothing and returns to dispatch
without moving. -/
theorem runMath_at_end (l : GoLexer) (hInv : LexInv l)
    (hle : l.input.length ≤ l.pos) :
    ∃ l', runMath l = .ok (l', some .action) ∧ LexInv l' ∧
      l'.input = l.input ∧ l'.pos = l.pos := by
  have h1 := accept_at_end (strBytes "*") l hInv hle (by decide)
  have hI1 : LexInv { l with width := 0 } :=
    LexInv_of_fields _ _ rfl rfl rfl hInv
  have h2 := accept_at_end (strBytes "+") _ hI1 hle (by decide)
  have h3 := accept_at_end (strBytes "-") _ hI1 hle (by decide)
  have h4 := accept_at_end (strBytes "/") _ hI1 hle (by decide)
  refine ⟨{ l with width := 0 }, ?_, hI1, rfl, rfl⟩
  simp [runMath, h1, h2, h3, h4, Bind.bind, Except.bind, Pure.pure,
    Except.pure]

/-- `Var` always returns to dispatch, never retreating. -/
theorem runVar_spec (rc : RuneClass) (l : GoLexer) (hInv : LexInv l) :
    ∃ l', runVar rc l = .ok (l', some .action) ∧ LexInv l' ∧
      l'.input = l.input ∧ l.pos ≤ l'.pos := by
  obtain ⟨l1, ok1, h1, hI1, hin1, hle1, _, _⟩ :=
    accept_any (strBytes "$") l hInv (by decide)
  obtain ⟨l2, h2, hI2, hin2, hle2⟩ := acceptRunFunc_ok (isAllowedRune rc) l1 hI1
  obtain ⟨l3, r3, n3, h3, hI3, hin3, hp3⟩ := peek_ok l2 hI2
  by_cases hc : r3 = 0x3A
  · refine ⟨emit ItemTy.varDecl l3, ?_, LexInv_of_fields _ _ rfl rfl rfl hI3,
      by simp [emit]; rw [hin3, hin2, hin1], by simp [emit]; omega⟩
    simp [runVar, h1, h2, h3, hc, Bind.bind, Except.bind, Pure.pure,
      Except.pure]
  · refine ⟨emit ItemTy.sub l3, ?_, LexInv_of_fields _ _ rfl rfl rfl hI3,
      by simp [emit]; rw [hin3, hin2, hin1], by simp [emit]; omega⟩
    simp [runVar, h1, h2, h3, hc, Bind.bind, Except.bind, Pure.pure,
      Except.pure]

/-- `File` always returns to dispatch, never retreating. -/
theorem runFile_spec (rc : RuneClass) (l : GoLexer) (hInv : LexInv l) :
    ∃ l', runFile rc l = .ok (l', some .action) ∧ LexInv l' ∧
      l'.input = l.input ∧ l.pos ≤ l'.pos := by
  obtain ⟨l1, ok1, h1, hI1, hin1, hle1, _, _⟩ := acceptFunc_any rc.isSpace l hInv
  have hI1b : LexInv (ignore l1) := LexInv_of_fields _ _ rfl rfl rfl hI1
  obtain ⟨l3, h3, hI3, hin3, hle3⟩ :=
    acceptRunFunc_ok (isAllowedRune rc) (ignore l1) hI1b
  by_cases hc : 0 < (currentLex l3).length
  · by_cases hk : 0 < rc.lookup (currentLex l3)
    · refine ⟨emit ItemTy.cmd l3, ?_, LexInv_of_fields _ _ rfl rfl rfl hI3,
        by simp [emit]; rw [hin3]; simp [ignore, hin1],
        by simp [emit, ignore] at hle3 ⊢; omega⟩
      simp [runFile, h1, h3, hc, hk, Bind.bind, Except.bind, Pure.pure,
        Except.pure]
    · refine ⟨emit ItemTy.file l3, ?_, LexInv_of_fields _ _ rfl rfl rfl hI3,
        by simp [emit]; rw [hin3]; simp [ignore, hin1],
        by simp [emit, ignore] at hle3 ⊢; omega⟩
      simp [runFile, h1, h3, hc, hk, Bind.bind, Except.bind, Pure.pure,
        Except.pure]
  · refine ⟨l3, ?_, hI3, by rw [hin3]; simp [ignore, hin1],
      by simp [ignore] at hle3; omega⟩
    simp [runFile, h1, h3, hc, Bind.bind, Except.bind, Pure.pure, Except.pure]

/-- The block-comment scan loop terminates under the invariant with
enough fuel, never retreating. -/
theorem commentBlockAux_ok :
    ∀ f lastR l, LexInv l → l.input.length - l.pos < f →
      ∃ l', commentBlockAux f lastR l = .ok l' ∧ LexInv l' ∧
        l'.input = l.input ∧ l.pos ≤ l'.pos := by
  intro f
  induction f with
  | zero => intro lastR l _ h; omega
  | succ g ih =>
    intro lastR l hInv hf
    by_cases hle : l.input.length ≤ l.pos
    · have ha := advance_at_end l hInv hle
      by_cases hb : lastR = 0x2A ∧ eofRune = 0x2F
      · exact absurd hb.2 (by decide)
      · refine ⟨{ l with width := 0 }, ?_,
          LexInv_of_fields _ _ rfl rfl rfl hInv, rfl, le_refl _⟩
        simp [commentBlockAux, ha, hb, Bind.bind, Except.bind, Pure.pure,
          Except.pure, eofRune]
    · obtain ⟨r, w, hdec, hadv, hw, hle2, hInv2⟩ :=
        advance_mid l hInv (Nat.not_le.mp hle)
      by_cases hb : lastR = 0x2A ∧ r = 0x2F
      · refine ⟨{ l with last := r, width := w, pos := l.pos + w }, ?_,
          hInv2, rfl, by simp⟩
        simp [commentBlockAux, hadv, hb, Bind.bind, Except.bind, Pure.pure,
          Except.pure]
      · by_cases hc : r = eofRune
        · refine ⟨{ l with last := r, width := w, pos := l.pos + w }, ?_,
            hInv2, rfl, by simp⟩
          simp [commentBlockAux, hadv, hb, hc, Bind.bind, Except.bind,
            Pure.pure, Except.pure]
        · obtain ⟨l2, h2, hI2, hin2, hle3⟩ := ih r
            { l with last := r, width := w, pos := l.pos + w } hInv2
            (by simp; omega)
          refine ⟨l2, ?_, hI2, by rw [hin2], by simp at hle3; omega⟩
          simp [commentBlockAux, hadv, hb, hc, h2, Bind.bind, Except.bind,
            Pure.pure, Except.pure]

/-- The line-comment scan loop terminates under the invariant (with the
end sentinel non-graphic) with enough fuel, never retreating. -/
theorem commentLineAux_ok (rc : RuneClass) (hgr : rc.isGraphic eofRune = false) :
    ∀ f l, LexInv l → l.input.length - l.pos < f →
      ∃ l', commentLineAux rc f l = .ok l' ∧ LexInv l' ∧
        l'.input = l.input ∧ l.pos ≤ l'.pos := by
  intro f
  induction f with
  | zero => intro l _ h; omega
  | succ g ih =>
    intro l hInv hf
    by_cases hle : l.input.length ≤ l.pos
    · have ha := advance_at_end l hInv hle
      refine ⟨{ l with width := 0 }, ?_,
        LexInv_of_fields _ _ rfl rfl rfl hInv, rfl, le_refl _⟩
      simp [commentLineAux, ha, hgr, Bind.bind, Except.bind, Pure.pure,
        Except.pure]
    · obtain ⟨r, w, hdec, hadv, hw, hle2, hInv2⟩ :=
        advance_mid l hInv (Nat.not_le.mp hle)
      by_cases hg : rc.isGraphic r
      · obtain ⟨l2, h2, hI2, hin2, hle3⟩ := ih
          { l with last := r, width := w, pos := l.pos + w } hInv2
          (by simp; omega)
        refine ⟨l2, ?_, hI2, by rw [hin2], by simp at hle3; omega⟩
        simp [commentLineAux, hadv, hg, h2, Bind.bind, Except.bind, Pure.pure,
          Except.pure]
      · refine ⟨{ l with last := r, width := w, pos := l.pos + w }, ?_,
          hInv2, rfl, by simp⟩
        simp [commentLineAux, hadv, hg, Bind.bind, Except.bind, Pure.pure,
          Except.pure]

/-- `Comment` always returns to dispatch, never retreating. -/
theorem runComment_spec (rc : RuneClass) (hgr : rc.isGraphic eofRune = false)
    (l : GoLexer) (hInv : LexInv l) :
    ∃ l', runComment rc l = .ok (l', some .action) ∧ LexInv l' ∧
      l'.input = l.input ∧ l.pos ≤ l'.pos := by
  by_cases h1 : currentLex l = strBytes "/*"
  · obtain ⟨l1, hb, hI1, hin1, hle1⟩ :=
      commentBlockAux_ok (l.input.length - l.pos + 1) 0 l hInv (by omega)
    refine ⟨emit ItemTy.cmt l1, ?_, LexInv_of_fields _ _ rfl rfl rfl hI1,
      by simp [emit]; rw [hin1], by simp [emit]; omega⟩
    simp [runComment, h1, hb, Bind.bind, Except.bind, Pure.pure, Except.pure]
  · by_cases h2 : currentLex l = strBytes "//"
    · obtain ⟨l1, hb, hI1, hin1, hle1⟩ :=
        commentLineAux_ok rc hgr (l.input.length - l.pos + 1) l hInv (by omega)
      refine ⟨emit ItemTy.cmt l1, ?_, LexInv_of_fields _ _ rfl rfl rfl hI1,
        by simp [emit]; rw [hin1], by simp [emit]; omega⟩
      have hne : strBytes "//" ≠ strBytes "/*" := by decide
      simp [runComment, h1, h2, hb, hne, Bind.bind, Except.bind, Pure.pure,
        Except.pure]
    · refine ⟨l, ?_, hInv, rfl, le_refl _⟩
      simp [runComment, h1, h2, Bind.bind, Except.bind, Pure.pure, Except.pure]

/-- `Directive` with `@` at the cursor: either a keyword is consumed and
control returns to dispatch having moved at least one byte, or the `@`
alone is consumed and control falls through to `Text`. -/
theorem runDirective_spec (l : GoLexer) (rest : List Nat) (hInv : LexInv l)
    (hsuf : l.input.drop l.pos = 0x40 :: rest) :
    (∃ l', runDirective l = .ok (l', some .action) ∧ LexInv l' ∧
      l'.input = l.input ∧ l.pos + 1 ≤ l'.pos) ∨
    (∃ l', runDirective l = .ok (l', some .text) ∧ LexInv l' ∧
      l'.input = l.input ∧ l'.pos = l.pos + 1) := by
  rcases acceptString_ok (strBytes "@import") l hInv (by decide) with ⟨h1, hI1⟩ | h1
  · refine Or.inl ⟨emit ItemTy.importTok
      { l with pos := l.pos + (strBytes "@import").length }, ?_,
      LexInv_of_fields _ _ rfl rfl rfl hI1, rfl, by simp [emit, strBytes]⟩
    simp [runDirective, h1, Bind.bind, Except.bind, Pure.pure, Except.pure]
  rcases acceptString_ok (strBytes "@include") l hInv (by decide) with ⟨h2, hI2⟩ | h2
  · refine Or.inl ⟨emit ItemTy.includeTok
      { l with pos := l.pos + (strBytes "@include").length }, ?_,
      LexInv_of_fields _ _ rfl rfl rfl hI2, rfl, by simp [emit, strBytes]⟩
    simp [runDirective, h1, h2, Bind.bind, Except.bind, Pure.pure, Except.pure]
  rcases acceptString_ok (strBytes "@each") l hInv (by decide) with ⟨h3, hI3⟩ | h3
  · refine Or.inl ⟨emit ItemTy.eachTok
      { l with pos := l.pos + (strBytes "@each").length }, ?_,
      LexInv_of_fields _ _ rfl rfl rfl hI3, rfl, by simp [emit, strBytes]⟩
    simp [runDirective, h1, h2, h3, Bind.bind, Except.bind, Pure.pure,
      Except.pure]
  rcases acceptString_ok (strBytes "@function") l hInv (by decide) with ⟨h4, hI4⟩ | h4
  · refine Or.inl ⟨emit ItemTy.funcTok
      { l with pos := l.pos + (strBytes "@function").length }, ?_,
      LexInv_of_fields _ _ rfl rfl rfl hI4, rfl, by simp [emit, strBytes]⟩
    simp [runDirective, h1, h2, h3, h4, Bind.bind, Except.bind, Pure.pure,
      Except.pure]
  rcases acceptString_ok (strBytes "@mixin") l hInv (by decide) with ⟨h5, hI5⟩ | h5
  · refine Or.inl ⟨emit ItemTy.mixinTok
      { l with pos := l.pos + (strBytes "@mixin").length }, ?_,
      LexInv_of_fields _ _ rfl rfl rfl hI5, rfl, by simp [emit, strBytes]⟩
    simp [runDirective, h1, h2, h3, h4, h5, Bind.bind, Except.bind, Pure.pure,
      Except.pure]
  rcases acceptString_ok (strBytes "@if") l hInv (by decide) with ⟨h6, hI6⟩ | h6
  · refine Or.inl ⟨emit ItemTy.ifTok
      { l with pos := l.pos + (strBytes "@if").length }, ?_,
      LexInv_of_fields _ _ rfl rfl rfl hI6, rfl, by simp [emit, strBytes]⟩
    simp [runDirective, h1, h2, h3, h4, h5, h6, Bind.bind, Except.bind,
      Pure.pure, Except.pure]
  rcases acceptString_ok (strBytes "@else") l hInv (by decide) with ⟨h7, hI7⟩ | h7
  · refine Or.inl ⟨emit ItemTy.elseTok
      { l with pos := l.pos + (strBytes "@else").length }, ?_,
      LexInv_of_fields _ _ rfl rfl rfl hI7, rfl, by simp [emit, strBytes]⟩
    simp [runDirective, h1, h2, h3, h4, h5, h6, h7, Bind.bind, Except.bind,
      Pure.pure, Except.pure]
  obtain ⟨h8, hI8⟩ := accept_hit (strBytes "@") l 0x40 rest hInv hsuf
    (by norm_num) (by decide)
  refine Or.inr ⟨{ l with last := 0x40, width := 1, pos := l.pos + 1 }, ?_,
    hI8, rfl, rfl⟩
  simp [runDirective, h1, h2, h3, h4, h5, h6, h7, h8, Bind.bind, Except.bind,
    Pure.pure, Except.pure]

/-- The command-list matcher: either some command was consumed (moving at
least one byte) or the lexer is unchanged. -/
theorem tryCmds_ok (cs : List (List Nat)) (l : GoLexer) (hInv : LexInv l)
    (hascii : ∀ c ∈ cs, ∀ b ∈ c, b < 0x80)
    (hne : ∀ c ∈ cs, 1 ≤ c.length) :
    (∃ l', tryCmds cs l = .ok (l', true) ∧ LexInv l' ∧ l'.input = l.input ∧
      l.pos + 1 ≤ l'.pos) ∨
    tryCmds cs l = .ok (l, false) := by
  induction cs with
  | nil => exact Or.inr rfl
  | cons c cs2 ih =>
    rcases acceptString_ok c l hInv (hascii c (by simp)) with ⟨h1, hI1⟩ | h1
    · refine Or.inl ⟨{ l with pos := l.pos + c.length }, ?_, hI1, rfl, ?_⟩
      · simp [tryCmds, h1, Bind.bind, Except.bind, Pure.pure, Except.pure]
      · have := hne c (by simp)
        simp
        omega
    · rcases ih (fun x hx => hascii x (by simp [hx]))
        (fun x hx => hne x (by simp [hx])) with ⟨l2, h2, hI2, hin2, hle2⟩ | h2
      · refine Or.inl ⟨l2, ?_, hI2, hin2, hle2⟩
        simp [tryCmds, h1, h2, Bind.bind, Except.bind, Pure.pure, Except.pure]
      · refine Or.inr ?_
        simp [tryCmds, h1, h2, Bind.bind, Except.bind, Pure.pure, Except.pure]

/-- The tail of `Lexer.Text` after the leading-`:` normalisation: writing
`L` for the normalised lexer, the `Text` chain reaches the dispatcher
without retreating, consuming at least one byte when the head rune is an
allowed rune (`IH` supplies the recursive case of the `-`-discarding
self-call). -/
theorem runText_tail (rc : RuneClass) (R : Nat)
    (IH : ∀ m, m < R → ∀ lx, LexInv lx → lx.input.length - lx.pos ≤ m →
      ∃ lx2, Reaches rc lx .text lx2 .action ∧ LexInv lx2 ∧
        lx2.input = lx.input ∧ lx.pos ≤ lx2.pos ∧
        (lx.pos < lx.input.length →
          isAllowedRune rc (utf8DecodeRune (lx.input.drop lx.pos)).1 = true →
          lx.pos + 1 ≤ lx2.pos))
    (l L : GoLexer) (hR : l.input.length - l.pos ≤ R)
    (hL : (if currentLex l = strBytes ":" then ignore l else l) = L)
    (hLpos : L.pos = l.pos) (hLin : L.input = l.input) (hLInv : LexInv L) :
    ∃ l', Reaches rc l .text l' .action ∧ LexInv l' ∧ l'.input = l.input ∧
      l.pos ≤ l'.pos ∧
      (l.pos < l.input.length →
        isAllowedRune rc (utf8DecodeRune (l.input.drop l.pos)).1 = true →
        l.pos + 1 ≤ l'.pos) := by
  rcases acceptString_ok (strBytes "sprite-map") L hLInv (by decide) with ⟨h1, hI1⟩ | h1
  · have hstep : runState rc .text l =
        .ok (emit ItemTy.cmdVar { L with pos := L.pos + (strBytes "sprite-map").length },
          some .action) := by
      simp [runState, runText, hL, h1, Bind.bind, Except.bind, Pure.pure,
        Except.pure]
    refine ⟨_, Reaches.step hstep (Reaches.refl _ _),
      LexInv_of_fields _ _ rfl rfl rfl hI1, by simp [emit, hLin], ?_, ?_⟩
    · simp [emit, strBytes, hLpos]
    · intro _ _
      simp [emit, strBytes, hLpos]
  rcases tryCmds_ok textCmds L hLInv (by decide) (by decide) with
    ⟨l2, h2, hI2, hin2, hle2⟩ | h2
  · have hstep : runState rc .text l = .ok (emit ItemTy.cmd l2, some .action) := by
      simp [runState, runText, hL, h1, h2, Bind.bind, Except.bind, Pure.pure,
        Except.pure]
    refine ⟨_, Reaches.step hstep (Reaches.refl _ _),
      LexInv_of_fields _ _ rfl rfl rfl hI2, ?_, ?_, ?_⟩
    · simp [emit]
      rw [hin2, hLin]
    · simp [emit]
      omega
    · intro _ _
      simp [emit]
      omega
  rcases acceptString_ok (strBytes "sprite") L hLInv (by decide) with ⟨h3, hI3⟩ | h3
  · have hstep : runState rc .text l =
        .ok (emit ItemTy.cmd { L with pos := L.pos + (strBytes "sprite").length },
          some .action) := by
      simp [runState, runText, hL, h1, h2, h3, Bind.bind, Except.bind,
        Pure.pure, Except.pure]
    refine ⟨_, Reaches.step hstep (Reaches.refl _ _),
      LexInv_of_fields _ _ rfl rfl rfl hI3, by simp [emit, hLin], ?_, ?_⟩
    · simp [emit, strBytes, hLpos]
    · intro _ _
      simp [emit, strBytes, hLpos]
  obtain ⟨l4, ok4, h4, hI4, hin4, hle4, hstay4, hadv4⟩ :=
    accept_any (strBytes "-") L hLInv (by decide)
  cases ok4 with
  | true =>
    have hp4 := hadv4 rfl
    have hstep : runState rc .text l = .ok (ignore l4, some .text) := by
      simp [runState, runText, hL, h1, h2, h3, h4, Bind.bind, Except.bind,
        Pure.pure, Except.pure]
    have hI4i : LexInv { ignore l4 with state := some StateName.text } :=
      LexInv_of_fields _ _ rfl rfl rfl hI4
    have e1 : l4.input.length = l.input.length := by rw [hin4, hLin]
    have hpos4le : l4.pos ≤ l4.input.length := hI4.2.1
    have hlt : l.pos < l.input.length := by omega
    obtain ⟨l5, hr5, hI5, hin5, hle5, _⟩ :=
      IH (l.input.length - l.pos - 1) (by omega)
        { ignore l4 with state := some StateName.text } hI4i
        (by simp [ignore]; omega)
    refine ⟨l5, Reaches.step hstep hr5, hI5, ?_, ?_, ?_⟩
    · rw [hin5]
      simp [ignore]
      rw [hin4, hLin]
    · simp [ignore] at hle5
      omega
    · intro _ _
      simp [ignore] at hle5
      omega
  | false =>
    have hp4 := hstay4 rfl
    by_cases hprog : l.pos < l.input.length ∧
        isAllowedRune rc (utf8DecodeRune (l.input.drop l.pos)).1 = true
    · obtain ⟨l5, h5, hI5, hin5, hle5⟩ :=
        acceptRunFunc_head (isAllowedRune rc) l4 hI4
          (by rw [hp4, hLpos, hin4, hLin]; exact hprog.1)
          (by rw [hp4, hLpos, hin4, hLin]; exact hprog.2)
      have hstep : runState rc .text l = .ok (emit ItemTy.text l5, some .action) := by
        simp [runState, runText, hL, h1, h2, h3, h4, h5, Bind.bind,
          Except.bind, Pure.pure, Except.pure]
      refine ⟨_, Reaches.step hstep (Reaches.refl _ _),
        LexInv_of_fields _ _ rfl rfl rfl hI5, ?_, ?_, ?_⟩
      · simp [emit]
        rw [hin5, hin4, hLin]
      · simp [emit]
        omega
      · intro _ _
        simp [emit]
        omega
    · obtain ⟨l5, h5, hI5, hin5, hle5⟩ :=
        acceptRunFunc_ok (isAllowedRune rc) l4 hI4
      have hstep : runState rc .text l = .ok (emit ItemTy.text l5, some .action) := by
        simp [runState, runText, hL, h1, h2, h3, h4, h5, Bind.bind,
          Except.bind, Pure.pure, Except.pure]
      refine ⟨_, Reaches.step hstep (Reaches.refl _ _),
        LexInv_of_fields _ _ rfl rfl rfl hI5, ?_, ?_, ?_⟩
      · simp [emit]
        rw [hin5, hin4, hLin]
      · simp [emit]
        omega
      · intro hlt hall
        exact absurd ⟨hlt, hall⟩ hprog

/-- The `Text` chain (including its `-`-discarding self-call) always
reaches the dispatcher, never retreating, and consumes at least one byte
when the head rune is an allowed rune. -/
theorem runText_reaches (rc : RuneClass) :
    ∀ R l, LexInv l → l.input.length - l.pos ≤ R →
      ∃ l', Reaches rc l .text l' .action ∧ LexInv l' ∧ l'.input = l.input ∧
        l.pos ≤ l'.pos ∧
        (l.pos < l.input.length →
          isAllowedRune rc (utf8DecodeRune (l.input.drop l.pos)).1 = true →
          l.pos + 1 ≤ l'.pos) := by
  intro R
  induction R using Nat.strong_induction_on with
  | _ R IH =>
    intro l hInv hR
    by_cases hcol : currentLex l = strBytes ":"
    · exact runText_tail rc R IH l (ignore l) hR (by simp [hcol])
        (by simp [ignore]) (by simp [ignore])
        (LexInv_of_fields _ _ rfl rfl rfl hInv)
    · exact runText_tail rc R IH l l hR (by simp [hcol]) rfl rfl hInv

/-- `AcceptString` refuses when the head byte differs from the literal's
head byte. -/
theorem acceptString_miss (s : List Nat) (l : GoLexer) (b c : Nat)
    (rest cs : List Nat) (hInv : LexInv l)
    (hsuf : l.input.drop l.pos = b :: rest) (hs : s = c :: cs) (hne : b ≠ c) :
    acceptString s l = .ok (l, false) := by
  subst hs
  simp [acceptString, hInv.1]
  intro _
  rw [hsuf]
  simp [List.take_succ_cons, hne]

/-- `Paren` with a structural symbol at the cursor: either the
nil-element dereference panic, or a transfer to dispatch or `File` that
consumed at least one byte. -/
theorem runParen_spec (rc : RuneClass) (l : GoLexer) (b : Nat) (rest : List Nat)
    (hInv : LexInv l) (hsuf : l.input.drop l.pos = b :: rest)
    (hb : isSymbolGo b = true) :
    runParen rc l = .error .nilDeref ∨
    ∃ l' tgt, runParen rc l = .ok (l', some tgt) ∧
      (tgt = StateName.action ∨ tgt = StateName.file) ∧ LexInv l' ∧
      l'.input = l.input ∧ l.pos + 1 ≤ l'.pos := by
  have hlen : l.pos < l.input.length := by
    have := congrArg List.length hsuf
    simp at this
    omega
  have hcases : b = 40 ∨ b = 41 ∨ b = 44 ∨ b = 59 ∨ b = 123 ∨ b = 125 ∨
      b = 35 ∨ b = 58 := by
    have hsym : strBytes "(),;\x7b\x7d#:" = [40, 41, 44, 59, 123, 125, 35, 58] := by
      decide
    simp [isSymbolGo, hsym] at hb
    tauto
  rcases hcases with hb40 | hb41 | hb44 | hb59 | hb123 | hb125 | hb35 | hb58
  · subst hb40
    have h0 := acceptString_miss (strBytes "#\x7b") l 40 35 rest [123] hInv hsuf
      (by decide) (by decide)
    obtain ⟨h1, hI1⟩ := accept_hit (strBytes "(") l 40 rest hInv hsuf
      (by norm_num) (by decide)
    have hI3 : LexInv (emit ItemTy.lparen { l with last := 40, width := 1, pos := l.pos + 1 }) :=
      LexInv_of_fields _ _ rfl rfl rfl hI1
    obtain ⟨l4, okD, h4, hI4, hin4, hle4, hstay4, hadvD⟩ :=
      accept_any (strBytes "$")
        (emit ItemTy.lparen { l with last := 40, width := 1, pos := l.pos + 1 })
        hI3 (by decide)
    cases okD with
    | true =>
      obtain ⟨l5, h5, hI5, hin5, hle5⟩ := acceptRunFunc_ok (isAllowedRune rc) l4 hI4
      have hI6 : LexInv (emit ItemTy.sub l5) := LexInv_of_fields _ _ rfl rfl rfl hI5
      obtain ⟨l7, ok7, h7, hI7, hin7, hle7, _, _⟩ :=
        accept_any (strBytes ", ") (emit ItemTy.sub l5) hI6 (by decide)
      refine Or.inr ⟨l7, .file, ?_, Or.inr rfl, hI7, ?_, ?_⟩
      · simp [runParen, h0, h1, h4, h5, h7, Bind.bind, Except.bind, Pure.pure,
          Except.pure]
      · rw [hin7]
        simp [emit]
        rw [hin5, hin4]
        simp [emit]
      · have hp := hadvD rfl
        simp [emit] at hp hle7
        omega
    | false =>
      have hp4 := hstay4 rfl
      cases hli : l.items.getLast? with
      | none =>
        refine Or.inl ?_
        simp [runParen, h0, h1, h4, hli, Bind.bind, Except.bind, Pure.pure,
          Except.pure]
      | some it =>
        by_cases hstr : itemStr it = strBytes "image-height" ∨
            itemStr it = strBytes "image-width"
        · refine Or.inr ⟨l4, .file, ?_, Or.inr rfl, hI4,
            by rw [hin4]; simp [emit], by rw [hp4]; simp [emit]⟩
          rcases hstr with h | h <;>
            simp [runParen, h0, h1, h4, hli, h, Bind.bind, Except.bind,
              Pure.pure, Except.pure]
        · refine Or.inr ⟨l4, .action, ?_, Or.inl rfl, hI4,
            by rw [hin4]; simp [emit], by rw [hp4]; simp [emit]⟩
          simp [runParen, h0, h1, h4, hli, hstr, Bind.bind, Except.bind,
            Pure.pure, Except.pure]
  · subst hb41
    have h0 := acceptString_miss (strBytes "#\x7b") l 41 35 rest [123] hInv hsuf
      (by decide) (by decide)
    obtain ⟨h1, hI1⟩ := accept_miss (strBytes "(") l 41 rest hInv hsuf
      (by norm_num) (by decide)
    obtain ⟨h2, hI2⟩ := accept_hit (strBytes ")") _ 41 rest hI1 hsuf
      (by norm_num) (by decide)
    refine Or.inr ⟨emit ItemTy.rparen { l with last := 41, width := 1, pos := l.pos + 1 },
      .action, ?_, Or.inl rfl, LexInv_of_fields _ _ rfl rfl rfl hI2,
      by simp [emit], by simp [emit]⟩
    simp [runParen, h0, h1, h2, Bind.bind, Except.bind, Pure.pure, Except.pure]
  · subst hb44
    have h0 := acceptString_miss (strBytes "#\x7b") l 44 35 rest [123] hInv hsuf
      (by decide) (by decide)
    obtain ⟨h1, hI1⟩ := accept_miss (strBytes "(") l 44 rest hInv hsuf
      (by norm_num) (by decide)
    obtain ⟨h2, hI2⟩ := accept_miss (strBytes ")") _ 44 rest hI1 hsuf
      (by norm_num) (by decide)
    obtain ⟨h3, hI3⟩ := accept_miss (strBytes "\x7b") _ 44 rest hI2 hsuf
      (by norm_num) (by decide)
    obtain ⟨h4, hI4⟩ := accept_miss (strBytes "\x7d") _ 44 rest hI3 hsuf
      (by norm_num) (by decide)
    obtain ⟨h5, hI5⟩ := accept_miss (strBytes ":") _ 44 rest hI4 hsuf
      (by norm_num) (by decide)
    obtain ⟨h6, hI6⟩ := accept_miss (strBytes ";") _ 44 rest hI5 hsuf
      (by norm_num) (by decide)
    obtain ⟨r, w, hdec, hadv, hw, hle2, hInv2⟩ := advance_mid _ hI6 hlen
    refine Or.inr ⟨_, .action, ?_, Or.inl rfl, hInv2, by simp, by simp; omega⟩
    simp [runParen, h0, h1, h2, h3, h4, h5, h6, hadv, Bind.bind, Except.bind, Pure.pure,
      Except.pure]
  · subst hb59
    have h0 := acceptString_miss (strBytes "#\x7b") l 59 35 rest [123] hInv hsuf
      (by decide) (by decide)
    obtain ⟨h1, hI1⟩ := accept_miss (strBytes "(") l 59 rest hInv hsuf
      (by norm_num) (by decide)
    obtain ⟨h2, hI2⟩ := accept_miss (strBytes ")") _ 59 rest hI1 hsuf
      (by norm_num) (by decide)
    obtain ⟨h3, hI3⟩ := accept_miss (strBytes "\x7b") _ 59 rest hI2 hsuf
      (by norm_num) (by decide)
    obtain ⟨h4, hI4⟩ := accept_miss (strBytes "\x7d") _ 59 rest hI3 hsuf
      (by norm_num) (by decide)
    obtain ⟨h5, hI5⟩ := accept_miss (strBytes ":") _ 59 rest hI4 hsuf
      (by norm_num) (by decide)
    obtain ⟨h6, hI6⟩ := accept_hit (strBytes ";") _ 59 rest hI5 hsuf
      (by norm_num) (by decide)
    refine Or.inr ⟨emit ItemTy.semic { l with last := 59, width := 1, pos := l.pos + 1 },
      .action, ?_, Or.inl rfl, LexInv_of_fields _ _ rfl rfl rfl hI6,
      by simp [emit], by simp [emit]⟩
    simp [runParen, h0, h1, h2, h3, h4, h5, h6, Bind.bind, Except.bind, Pure.pure, Except.pure]
  · subst hb123
    have h0 := acceptString_miss (strBytes "#\x7b") l 123 35 rest [123] hInv hsuf
      (by decide) (by decide)
    obtain ⟨h1, hI1⟩ := accept_miss (strBytes "(") l 123 rest hInv hsuf
      (by norm_num) (by decide)
    obtain ⟨h2, hI2⟩ := accept_miss (strBytes ")") _ 123 rest hI1 hsuf
      (by norm_num) (by decide)
    obtain ⟨h3, hI3⟩ := accept_hit (strBytes "\x7b") _ 123 rest hI2 hsuf
      (by norm_num) (by decide)
    refine Or.inr ⟨emit ItemTy.lbracket { l with last := 123, width := 1, pos := l.pos + 1 },
      .action, ?_, Or.inl rfl, LexInv_of_fields _ _ rfl rfl rfl hI3,
      by simp [emit], by simp [emit]⟩
    simp [runParen, h0, h1, h2, h3, Bind.bind, Except.bind, Pure.pure, Except.pure]
  · subst hb125
    have h0 := acceptString_miss (strBytes "#\x7b") l 125 35 rest [123] hInv hsuf
      (by decide) (by decide)
    obtain ⟨h1, hI1⟩ := accept_miss (strBytes "(") l 125 rest hInv hsuf
      (by norm_num) (by decide)
    obtain ⟨h2, hI2⟩ := accept_miss (strBytes ")") _ 125 rest hI1 hsuf
      (by norm_num) (by decide)
    obtain ⟨h3, hI3⟩ := accept_miss (strBytes "\x7b") _ 125 rest hI2 hsuf
      (by norm_num) (by decide)
    obtain ⟨h4, hI4⟩ := accept_hit (strBytes "\x7d") _ 125 rest hI3 hsuf
      (by norm_num) (by decide)
    refine Or.inr ⟨emit ItemTy.rbracket { l with last := 125, width := 1, pos := l.pos + 1 },
      .action, ?_, Or.inl rfl, LexInv_of_fields _ _ rfl rfl rfl hI4,
      by simp [emit], by simp [emit]⟩
    simp [runParen, h0, h1, h2, h3, h4, Bind.bind, Except.bind, Pure.pure, Except.pure]
  · subst hb35
    rcases acceptString_ok (strBytes "#\x7b") l hInv (by decide) with ⟨h0, hI0⟩ | h0
    · refine Or.inr ⟨emit ItemTy.intp
        { l with pos := l.pos + (strBytes "#\x7b").length }, .action, ?_,
        Or.inl rfl, LexInv_of_fields _ _ rfl rfl rfl hI0, by simp [emit],
        by simp [emit, strBytes]⟩
      simp [runParen, h0, Bind.bind, Except.bind, Pure.pure, Except.pure]
    · obtain ⟨h1, hI1⟩ := accept_miss (strBytes "(") l 35 rest hInv hsuf
        (by norm_num) (by decide)
      obtain ⟨h2, hI2⟩ := accept_miss (strBytes ")") _ 35 rest hI1 hsuf
        (by norm_num) (by decide)
      obtain ⟨h3, hI3⟩ := accept_miss (strBytes "\x7b") _ 35 rest hI2 hsuf
        (by norm_num) (by decide)
      obtain ⟨h4, hI4⟩ := accept_miss (strBytes "\x7d") _ 35 rest hI3 hsuf
        (by norm_num) (by decide)
      obtain ⟨h5, hI5⟩ := accept_miss (strBytes ":") _ 35 rest hI4 hsuf
        (by norm_num) (by decide)
      obtain ⟨h6, hI6⟩ := accept_miss (strBytes ";") _ 35 rest hI5 hsuf
        (by norm_num) (by decide)
      obtain ⟨r, w, hdec, hadv, hw, hle2, hInv2⟩ := advance_mid _ hI6 hlen
      refine Or.inr ⟨_, .action, ?_, Or.inl rfl, hInv2, by simp, by simp; omega⟩
      simp [runParen, h0, h1, h2, h3, h4, h5, h6, hadv, Bind.bind, Except.bind, Pure.pure,
        Except.pure]
  · subst hb58
    have h0 := acceptString_miss (strBytes "#\x7b") l 58 35 rest [123] hInv hsuf
      (by decide) (by decide)
    obtain ⟨h1, hI1⟩ := accept_miss (strBytes "(") l 58 rest hInv hsuf
      (by norm_num) (by decide)
    obtain ⟨h2, hI2⟩ := accept_miss (strBytes ")") _ 58 rest hI1 hsuf
      (by norm_num) (by decide)
    obtain ⟨h3, hI3⟩ := accept_miss (strBytes "\x7b") _ 58 rest hI2 hsuf
      (by norm_num) (by decide)
    obtain ⟨h4, hI4⟩ := accept_miss (strBytes "\x7d") _ 58 rest hI3 hsuf
      (by norm_num) (by decide)
    obtain ⟨h5, hI5⟩ := accept_hit (strBytes ":") _ 58 rest hI4 hsuf
      (by norm_num) (by decide)
    refine Or.inr ⟨emit ItemTy.colon { l with last := 58, width := 1, pos := l.pos + 1 },
      .action, ?_, Or.inl rfl, LexInv_of_fields _ _ rfl rfl rfl hI5,
      by simp [emit], by simp [emit]⟩
    simp [runParen, h0, h1, h2, h3, h4, h5, Bind.bind, Except.bind, Pure.pure, Except.pure]

/-- The dispatcher chain halts from any lexer satisfying the invariant:
strong induction on the remaining byte count, one case per branch of
`Lexer.Action`. -/
theorem action_halts (rc : RuneClass) (hgr : rc.isGraphic eofRune = false) :
    ∀ R l, LexInv l → l.input.length - l.pos ≤ R → ScanHalts rc l .action := by
  intro R
  induction R using Nat.strong_induction_on with
  | _ R IH =>
    intro l hInv hR
    by_cases hend : l.input.length ≤ l.pos
    · have hadv := advance_at_end l hInv hend
      have hstep : runState rc .action l =
          .ok ({ l with
            width := 0,
            items := l.items ++ [⟨ItemTy.eofItem, l.start, []⟩] }, none) := by
        simp [runState, runAction, hadv, Bind.bind, Except.bind, Pure.pure,
          Except.pure]
      exact scanHalts_done rc hstep (by simp)
    · have hlt : l.pos < l.input.length := Nat.not_le.mp hend
      obtain ⟨r, w, hdec, hadv, hw1, hwle, hInv1⟩ := advance_mid l hInv hlt
      have hne0 : l.input.drop l.pos ≠ [] := by
        intro h
        have := congrArg List.length h
        simp at this
        omega
      obtain ⟨b, rest, hsuf⟩ := List.exists_cons_of_ne_nil hne0
      have hdecb : utf8DecodeRune (b :: rest) = (r, w) := by
        rw [← hsuf]
        exact hdec
      by_cases hr4 : r = eofRune
      · have hstep : runState rc .action l =
            .ok ({ l with
              last := r, width := w, pos := l.pos + w,
              items := l.items ++ [⟨ItemTy.eofItem, l.start, []⟩] }, none) := by
          simp [runState, runAction, hadv, hr4, Bind.bind, Except.bind,
            Pure.pure, Except.pure]
        exact scanHalts_done rc hstep (by simp)
      by_cases hsp : rc.isSpace r = true
      · have hstep : runState rc .action l =
            .ok (ignore { l with last := r, width := w, pos := l.pos + w },
              some .action) := by
          simp [runState, runAction, hadv, hr4, hsp, Bind.bind, Except.bind,
            Pure.pure, Except.pure]
        refine scanHalts_step rc hstep
          (IH (l.input.length - l.pos - 1) (by omega) _
            (LexInv_of_fields _ _ rfl rfl rfl hInv1) ?_)
        simp [ignore]
        omega
      by_cases hsym : isSymbolGo r = true
      · have hr128 : r < 0x80 := by
          have h2 := hsym
          have hsymlist : strBytes "(),;\x7b\x7d#:" =
              [40, 41, 44, 59, 123, 125, 35, 58] := by decide
          simp [isSymbolGo, hsymlist] at h2
          rcases h2 with h | h | h | h | h | h | h | h <;> omega
        obtain ⟨hww, hbb⟩ := utf8DecodeRune_ascii_inv b rest r w hdecb hr128
        subst hww
        have hbb2 : r = b := hbb.symm
        subst hbb2
        have hbk := backup_advanced l r 1
        have hsuf2 : l.input.drop l.pos = r :: rest := hsuf
        by_cases hemit :
            0 < (currentLex { l with last := r, width := 1, pos := l.pos }).length
        · have hstep : runState rc .action l =
              .ok (emit ItemTy.text { l with last := r, width := 1, pos := l.pos },
                some .paren) := by
            simp [runState, runAction, hadv, hr4, hsp, hsym, hbk, hemit,
              Bind.bind, Except.bind, Pure.pure, Except.pure]
          rcases runParen_spec rc
              { emit ItemTy.text { l with last := r, width := 1, pos := l.pos } with
                state := some StateName.paren } r rest
              (LexInv_of_fields _ _ rfl rfl rfl hInv) hsuf2 hsym with
            herr | ⟨lp', tgt, hpok, htgt, hIp, hinp, hlep⟩
          · exact scanHalts_step rc hstep (scanHalts_nil rc herr)
          · have hin' : lp'.input = l.input := hinp
            have hlep' : l.pos + 1 ≤ lp'.pos := hlep
            rcases htgt with htga | htgf
            · subst htga
              refine scanHalts_step rc hstep (scanHalts_step rc hpok
                (IH (l.input.length - l.pos - 1) (by omega) _
                  (LexInv_of_fields _ _ rfl rfl rfl hIp) ?_))
              simp
              rw [hin']
              omega
            · subst htgf
              obtain ⟨lf, hfok, hIf, hinf, hlef⟩ :=
                runFile_spec rc { lp' with state := some StateName.file }
                  (LexInv_of_fields _ _ rfl rfl rfl hIp)
              have hinf' : lf.input = lp'.input := hinf
              have hlef' : lp'.pos ≤ lf.pos := hlef
              refine scanHalts_step rc hstep (scanHalts_step rc hpok
                (scanHalts_step rc hfok
                  (IH (l.input.length - l.pos - 1) (by omega) _
                    (LexInv_of_fields _ _ rfl rfl rfl hIf) ?_)))
              simp
              rw [hinf', hin']
              omega
        · have hstep : runState rc .action l =
              .ok ({ l with last := r, width := 1, pos := l.pos },
                some .paren) := by
            simp [runState, runAction, hadv, hr4, hsp, hsym, hbk, hemit,
              Bind.bind, Except.bind, Pure.pure, Except.pure]
          rcases runParen_spec rc
              { l with
                last := r, width := 1, pos := l.pos,
                state := some StateName.paren } r rest
              (LexInv_of_fields _ _ rfl rfl rfl hInv) hsuf2 hsym with
            herr | ⟨lp', tgt, hpok, htgt, hIp, hinp, hlep⟩
          · exact scanHalts_step rc hstep (scanHalts_nil rc herr)
          · have hin' : lp'.input = l.input := hinp
            have hlep' : l.pos + 1 ≤ lp'.pos := hlep
            rcases htgt with htga | htgf
            · subst htga
              refine scanHalts_step rc hstep (scanHalts_step rc hpok
                (IH (l.input.length - l.pos - 1) (by omega) _
                  (LexInv_of_fields _ _ rfl rfl rfl hIp) ?_))
              simp
              rw [hin']
              omega
            · subst htgf
              obtain ⟨lf, hfok, hIf, hinf, hlef⟩ :=
                runFile_spec rc { lp' with state := some StateName.file }
                  (LexInv_of_fields _ _ rfl rfl rfl hIp)
              have hinf' : lf.input = lp'.input := hinf
              have hlef' : lp'.pos ≤ lf.pos := hlef
              refine scanHalts_step rc hstep (scanHalts_step rc hpok
                (scanHalts_step rc hfok
                  (IH (l.input.length - l.pos - 1) (by omega) _
                    (LexInv_of_fields _ _ rfl rfl rfl hIf) ?_)))
              simp
              rw [hinf', hin']
              omega
      by_cases hslash : r = 0x2F
      · subst hslash
        obtain ⟨hww, hbb⟩ := utf8DecodeRune_ascii_inv b rest 0x2F w hdecb
          (by norm_num)
        subst hww
        subst hbb
        have hslashsuf : slashOk (0x2F :: rest) = true := by
          rw [← hsuf]
          exact hInv.2.2.2
        rcases slashOk_head rest hslashsuf with hrest | ⟨c, cs, hrest, hc128⟩
        · subst hrest
          have hlen1 : l.input.length = l.pos + 1 := by
            have := congrArg List.length hsuf
            simp at this
            omega
          have hle1 : l.input.length ≤ l.pos + 1 := by omega
          have h1 := accept_at_end (strBytes "/*")
            { l with last := 0x2F, width := 1, pos := l.pos + 1 } hInv1 hle1
            (by decide)
          have hbk2 : backup { l with last := 0x2F, width := 0, pos := l.pos + 1 } =
              { l with last := 0x2F, width := 0, pos := l.pos + 1 } := by
            cases l
            simp [backup]
          have hstep : runState rc .action l =
              .ok ({ l with last := 0x2F, width := 0, pos := l.pos + 1 },
                some .math) := by
            simp [runState, runAction, hadv, hr4, hsp, hsym, h1, hbk2,
              Bind.bind, Except.bind, Pure.pure, Except.pure]
          have hIm : LexInv { l with
              last := 0x2F, width := 0, pos := l.pos + 1,
              state := some StateName.math } :=
            LexInv_of_fields _ _ rfl rfl rfl hInv1
          have hle2 : l.input.length ≤ l.pos + 1 := hle1
          obtain ⟨lm', hmok, hIm', hinm, hpm⟩ :=
            runMath_at_end { l with
              last := 0x2F, width := 0, pos := l.pos + 1,
              state := some StateName.math } hIm hle2
          have hinm' : lm'.input = l.input := hinm
          have hpm' : lm'.pos = l.pos + 1 := hpm
          refine scanHalts_step rc hstep (scanHalts_step rc hmok
            (IH (l.input.length - l.pos - 1) (by omega) _
              (LexInv_of_fields _ _ rfl rfl rfl hIm') ?_))
          simp
          rw [hinm', hpm']
          omega
        · subst hrest
          have hdd1 : l.input.drop (l.pos + 1) = (l.input.drop l.pos).drop 1 := by
            rw [List.drop_drop]
          have hsuf1 : l.input.drop (l.pos + 1) = c :: cs := by
            rw [hdd1, hsuf]
            rfl
          by_cases hcm : c ∈ strBytes "/*"
          · obtain ⟨h1, hI2⟩ := accept_hit (strBytes "/*")
              { l with last := 0x2F, width := 1, pos := l.pos + 1 } c cs
              hInv1 hsuf1 hc128 hcm
            have hstep : runState rc .action l =
                .ok ({ l with last := c, width := 1, pos := l.pos + 1 + 1 },
                  some .comment) := by
              simp [runState, runAction, hadv, hr4, hsp, hsym, h1,
                Bind.bind, Except.bind, Pure.pure, Except.pure]
            obtain ⟨lc, hcok, hIc, hinc, hlec⟩ :=
              runComment_spec rc hgr
                { l with
                  last := c, width := 1, pos := l.pos + 1 + 1,
                  state := some StateName.comment }
                (LexInv_of_fields _ _ rfl rfl rfl hI2)
            have hinc' : lc.input = l.input := hinc
            have hlec' : l.pos + 1 + 1 ≤ lc.pos := hlec
            refine scanHalts_step rc hstep (scanHalts_step rc hcok
              (IH (l.input.length - l.pos - 1) (by omega) _
                (LexInv_of_fields _ _ rfl rfl rfl hIc) ?_))
            simp
            rw [hinc']
            omega
          · obtain ⟨h1, hI2⟩ := accept_miss (strBytes "/*")
              { l with last := 0x2F, width := 1, pos := l.pos + 1 } c cs
              hInv1 hsuf1 hc128 hcm
            have hbk2 := backup_advanced l c 1
            have hstep : runState rc .action l =
                .ok ({ l with last := c, width := 1, pos := l.pos },
                  some .math) := by
              simp [runState, runAction, hadv, hr4, hsp, hsym, h1, hbk2,
                Bind.bind, Except.bind, Pure.pure, Except.pure]
            obtain ⟨lm', hmok, hIm', hinm, hpm⟩ :=
              runMath_progress
                { l with
                  last := c, width := 1, pos := l.pos,
                  state := some StateName.math } 0x2F (c :: cs)
                (LexInv_of_fields _ _ rfl rfl rfl hInv) hsuf (by decide)
            have hinm' : lm'.input = l.input := hinm
            have hpm' : lm'.pos = l.pos + 1 := hpm
            refine scanHalts_step rc hstep (scanHalts_step rc hmok
              (IH (l.input.length - l.pos - 1) (by omega) _
                (LexInv_of_fields _ _ rfl rfl rfl hIm') ?_))
            simp
            rw [hinm', hpm']
            omega
      by_cases hmathr : (strBytes "*-+/").contains r = true
      · have hr128 : r < 0x80 := by
          have h2 := hmathr
          have hml : strBytes "*-+/" = [42, 45, 43, 47] := by decide
          simp [hml] at h2
          rcases h2 with h | h | h | h <;> omega
        obtain ⟨hww, hbb⟩ := utf8DecodeRune_ascii_inv b rest r w hdecb hr128
        subst hww
        have hbb2 : r = b := hbb.symm
        subst hbb2
        have hbk := backup_advanced l r 1
        have hmem : r ∈ strBytes "*-+/" := by simpa using hmathr
        have hstep : runState rc .action l =
            .ok ({ l with last := r, width := 1, pos := l.pos },
              some .math) := by
          simp [runState, runAction, hadv, hr4, hsp, hsym, hslash, hmathr, hmem,
            hbk, Bind.bind, Except.bind, Pure.pure, Except.pure]
        obtain ⟨lm', hmok, hIm', hinm, hpm⟩ :=
          runMath_progress
            { l with
              last := r, width := 1, pos := l.pos,
              state := some StateName.math } r rest
            (LexInv_of_fields _ _ rfl rfl rfl hInv) hsuf hmem
        have hinm' : lm'.input = l.input := hinm
        have hpm' : lm'.pos = l.pos + 1 := hpm
        refine scanHalts_step rc hstep (scanHalts_step rc hmok
          (IH (l.input.length - l.pos - 1) (by omega) _
            (LexInv_of_fields _ _ rfl rfl rfl hIm') ?_))
        simp
        rw [hinm', hpm']
        omega
      have hnmem : r ∉ strBytes "*-+/" := by simpa using hmathr
      by_cases hat : r = 0x40
      · subst hat
        obtain ⟨hww, hbb⟩ := utf8DecodeRune_ascii_inv b rest 0x40 w hdecb
          (by norm_num)
        subst hww
        subst hbb
        have hbk := backup_advanced l 0x40 1
        have hstep : runState rc .action l =
            .ok ({ l with last := 0x40, width := 1, pos := l.pos },
              some .directive) := by
          simp [runState, runAction, hadv, hr4, hsp, hsym, hslash, hnmem, hbk,
            Bind.bind, Except.bind, Pure.pure, Except.pure]
        rcases runDirective_spec
            { l with
              last := 0x40, width := 1, pos := l.pos,
              state := some StateName.directive } rest
            (LexInv_of_fields _ _ rfl rfl rfl hInv) hsuf with
          ⟨ld, hdok, hId, hind, hled⟩ | ⟨ld, hdok, hId, hind, hpd⟩
        · have hind' : ld.input = l.input := hind
          have hled' : l.pos + 1 ≤ ld.pos := hled
          refine scanHalts_step rc hstep (scanHalts_step rc hdok
            (IH (l.input.length - l.pos - 1) (by omega) _
              (LexInv_of_fields _ _ rfl rfl rfl hId) ?_))
          simp
          rw [hind']
          omega
        · have hind' : ld.input = l.input := hind
          have hpd' : ld.pos = l.pos + 1 := hpd
          obtain ⟨lt, hrt, hIt, hint, hlet, _⟩ :=
            runText_reaches rc ld.input.length
              { ld with state := some StateName.text }
              (LexInv_of_fields _ _ rfl rfl rfl hId) (by simp)
          have hint' : lt.input = ld.input := hint
          have hlet' : ld.pos ≤ lt.pos := hlet
          refine scanHalts_step rc hstep (scanHalts_step rc hdok
            (reaches_halts rc hrt
              (IH (l.input.length - l.pos - 1) (by omega) _ hIt ?_)))
          rw [hint', hind']
          omega
      by_cases hquote : r = 0x22 ∨ r = 0x27
      · have hstep : runState rc .action l =
            .ok ({ l with last := r, width := w, pos := l.pos + w },
              some .file) := by
          simp [runState, runAction, hadv, hr4, hsp, hsym, hslash, hnmem, hat,
            hquote, Bind.bind, Except.bind, Pure.pure, Except.pure]
        obtain ⟨lf, hfok, hIf, hinf, hlef⟩ :=
          runFile_spec rc
            { l with
              last := r, width := w, pos := l.pos + w,
              state := some StateName.file } hInv1
        have hinf' : lf.input = l.input := hinf
        have hlef' : l.pos + w ≤ lf.pos := hlef
        refine scanHalts_step rc hstep (scanHalts_step rc hfok
          (IH (l.input.length - l.pos - 1) (by omega) _
            (LexInv_of_fields _ _ rfl rfl rfl hIf) ?_))
        simp
        rw [hinf']
        omega
      by_cases hdollar : r = 0x24
      · have hcondd : (r = 0x24) = True := eq_true hdollar
        have hstep : runState rc .action l =
            .ok ({ l with last := r, width := w, pos := l.pos + w },
              some .varState) := by
          simp [runState, runAction, hadv, hr4, hsp, hsym, hslash, hnmem, hat,
            hquote, hcondd, Bind.bind, Except.bind, Pure.pure, Except.pure]
        obtain ⟨lv, hvok, hIv, hinv2, hlev⟩ :=
          runVar_spec rc
            { l with
              last := r, width := w, pos := l.pos + w,
              state := some StateName.varState } hInv1
        have hinv2' : lv.input = l.input := hinv2
        have hlev' : l.pos + w ≤ lv.pos := hlev
        refine scanHalts_step rc hstep (scanHalts_step rc hvok
          (IH (l.input.length - l.pos - 1) (by omega) _
            (LexInv_of_fields _ _ rfl rfl rfl hIv) ?_))
        simp
        rw [hinv2']
        omega
      by_cases hallow : isAllowedRune rc r = true
      · have hbk := backup_advanced l r w
        have hstep : runState rc .action l =
            .ok ({ l with last := r, width := w, pos := l.pos },
              some .text) := by
          simp [runState, runAction, hadv, hr4, hsp, hsym, hslash, hnmem, hat,
            hquote, hdollar, hallow, hbk, Bind.bind, Except.bind, Pure.pure,
            Except.pure]
        have hall2 : isAllowedRune rc (utf8DecodeRune (l.input.drop l.pos)).1 =
            true := by
          rw [hdec]
          exact hallow
        obtain ⟨lt, hrt, hIt, hint, hlet, hprog⟩ :=
          runText_reaches rc l.input.length
            { l with
              last := r, width := w, pos := l.pos,
              state := some StateName.text }
            (LexInv_of_fields _ _ rfl rfl rfl hInv) (by simp)
        have hint' : lt.input = l.input := hint
        have hprog' : l.pos + 1 ≤ lt.pos := hprog hlt hall2
        refine scanHalts_step rc hstep (reaches_halts rc hrt
          (IH (l.input.length - l.pos - 1) (by omega) _ hIt ?_))
        rw [hint']
        omega
      · have hstep : runState rc .action l =
            .ok ({ l with last := r, width := w, pos := l.pos + w },
              some .action) := by
          simp [runState, runAction, hadv, hr4, hsp, hsym, hslash, hnmem, hat,
            hquote, hdollar, hallow, Bind.bind, Except.bind, Pure.pure,
            Except.pure]
        refine scanHalts_step rc hstep
          (IH (l.input.length - l.pos - 1) (by omega) _
            (LexInv_of_fields _ _ rfl rfl rfl hInv1) ?_)
        simp
        omega

/-- C10 (amended): for valid-UTF-8 input the claim fails as stated (the
`/`-fallthrough's double `Backup` can underflow the cursor, and `Paren`
dereferences a nil queue element — see the counterexample); under the
additional hypotheses that every `/` byte is followed by an ASCII byte or
the end of input and that the end sentinel is not a graphic rune, the
dispatch chain from a fresh lexer always halts: it reaches the terminal
state with the end-of-stream item as the last queued item, or raises the
one reachable panic, the nil dereference in `Paren`. -/
theorem action_scan_terminates (rc : RuneClass) (input : List Nat)
    (hval : validUTF8 input = true) (hslash : slashOk input = true)
    (hgr : rc.isGraphic eofRune = false) :
    ScanHalts rc (newLexer input) .action := by
  refine action_halts rc hgr input.length (newLexer input)
    ⟨rfl, by simp [newLexer], ?_, ?_⟩ (by simp [newLexer])
  · simpa [newLexer] using hval
  · simpa [newLexer] using hslash

/-- Witness: the amended termination theorem applied to the concrete
ASCII input `.a: red;` under the concrete ASCII classifiers. -/
theorem action_scan_terminates_witness :
    validUTF8 (strBytes ".a: red;") = true ∧
    slashOk (strBytes ".a: red;") = true ∧
    rcGo.isGraphic eofRune = false ∧
    ScanHalts rcGo (newLexer (strBytes ".a: red;")) .action :=
  ⟨by decide, by decide, by decide,
    action_scan_terminates rcGo (strBytes ".a: red;") (by decide) (by decide)
      (by decide)⟩
